import Mathlib

/-!
Shallow embedding of `abseil.podspec.gen.py` (the CocoaPods manifest
generator of the abseil-cpp repository) together with proofs about it.

The Python script is a linear pipeline: collect Bazel `cc_*` rules from the
source tree (via a `bazel query` subprocess), filter them to non-test
`cc_library` rules, group them into a nested dictionary keyed by the
namespace path derived from each rule's package, and render the dictionary
as a CocoaPods podspec file.

Modelling conventions:
  * Python strings are Lean `String`s; character-level operations
    (`startswith`, slicing, `split`, `replace`, `lstrip`) are modelled on
    `String.data` so that they match Python's code-point semantics.
  * Python dictionaries are association lists in insertion order
    (`List (String × RTree)`), with assignment updating in place and
    appending fresh keys — exactly the semantics of CPython dicts.
  * Fallible Python code (assertions, KeyError/IndexError/TypeError,
    subprocess failures) is modelled with `Except PyErr`.  An uncaught
    exception makes the process exit with a non-zero status.
  * Sequential `f.write` calls are modelled by the writer type `W`:
    either the total emitted text, or an error paired with the text
    emitted before the error was raised.
  * The `bazel` subprocess and the XML parse performed by
    `collect_rules`/`read_build` are external inputs; `runMain` takes
    their combined outcome (`Except PyErr (List Rule)`) as a parameter.
-/

namespace PodspecGen

/-- Python exception outcomes that the script can raise. -/
inductive PyErr where
  /-- `assert` failure inside `get_spec_name`, message is the label. -/
  | assertionError (label : String)
  /-- dictionary lookup of a missing key. -/
  | keyError (key : String)
  /-- e.g. `re.sub` receiving `None` from the replacement function. -/
  | typeError
  /-- attribute access / item assignment on a `Rule` used as a dict. -/
  | attrError
  /-- `values[0]` on an empty list in `write_list`. -/
  | indexError
  /-- `subprocess.check_output` failed: non-zero exit or command not found. -/
  | calledProcessError
  deriving Repr, DecidableEq

/-- The `Rule` namedtuple of the script:
`Rule = namedtuple("Rule", "type name package srcs hdrs deps visibility testonly")`.
The field `type` is spelled `type_` because `type` is reserved in Lean. -/
structure Rule where
  type_ : String
  name : String
  package : String
  srcs : List String
  hdrs : List String
  deps : List String
  visibility : List String
  testonly : Bool
  deriving Repr, DecidableEq

/-- Python `s.lstrip("/")`: remove every leading `'/'` character. -/
def pyLstripSlash (s : String) : String :=
  ⟨s.data.dropWhile (· = '/')⟩

/-- One character of Python `s.replace(":", "/")`. -/
def colonToSlash (c : Char) : Char :=
  if c = ':' then '/' else c

/-- Python `s.replace(":", "/")`: replace every colon by a slash. -/
def pyReplaceColon (s : String) : String :=
  ⟨s.data.map colonToSlash⟩

/-- `normalize_paths`: `[path.lstrip("/").replace(":", "/") for path in paths]`. -/
def normalize_paths (paths : List String) : List String :=
  paths.map (fun path => pyReplaceColon (pyLstripSlash path))

/-- Auxiliary state machine of Python `s.split(sep)` for a one-character
separator: accumulate the current field (reversed) and cut at each
separator occurrence. -/
def pySplitAux (sep : Char) : List Char → List Char → List (List Char)
  | [], acc => [acc.reverse]
  | c :: cs, acc =>
      if c = sep then acc.reverse :: pySplitAux sep cs []
      else pySplitAux sep cs (c :: acc)

/-- Python `s.split(sep)` for a one-character separator `sep`. -/
def pySplit (sep : Char) (s : String) : List String :=
  (pySplitAux sep s.data []).map (fun l => ⟨l⟩)

/-- Python `label.startswith("//absl/")`. -/
def startsWithAbsl (label : String) : Bool :=
  "//absl/".data.isPrefixOf label.data

/-- `get_spec_name`: assert that the label starts with `"//absl/"` and
replace that prefix by `"abseil/"` (`"abseil/" + label[7:]`). -/
def get_spec_name (label : String) : Except PyErr String :=
  if startsWithAbsl label then .ok ("abseil/" ++ ⟨label.data.drop 7⟩)
  else .error (.assertionError label)

/-- The nested dictionary built by `build_rule_directory`: a Python dict
(association list in insertion order) whose values are nested dicts or
`Rule` leaves. -/
inductive RTree where
  | leaf (r : Rule) : RTree
  | node (es : List (String × RTree)) : RTree

/-- Python `d[k]` lookup (as an `Option`). -/
def lookupDict (es : List (String × RTree)) (k : String) : Option RTree :=
  match es with
  | [] => none
  | (k', v) :: rest => if k' = k then some v else lookupDict rest k

/-- Python `d[k] = v`: update in place if the key exists, else append. -/
def assocSet (es : List (String × RTree)) (k : String) (v : RTree) :
    List (String × RTree) :=
  match es with
  | [] => [(k, v)]
  | (k', v') :: rest =>
      if k' = k then (k, v) :: rest else (k', v') :: assocSet rest k v

/-- The loop body of `build_rule_directory` for one rule:
`cur = rule_dir; for frag in frags: cur = cur.setdefault(frag, {}); cur[name] = rule`.
When `setdefault` returns a `Rule` instead of a dict, the next loop
iteration raises `AttributeError` (no `.setdefault` on a namedtuple) and
the final assignment raises `TypeError` (no item assignment). -/
def insertPath (es : List (String × RTree)) (frags : List String)
    (name : String) (r : Rule) : Except PyErr (List (String × RTree)) :=
  match frags with
  | [] => .ok (assocSet es name (.leaf r))
  | f :: rest =>
      match lookupDict es f with
      | none => (insertPath [] rest name r).map (fun sub => es ++ [(f, .node sub)])
      | some (.node sub) =>
          (insertPath sub rest name r).map (fun sub2 => assocSet es f (.node sub2))
      | some (.leaf _) => .error (if rest.isEmpty then .typeError else .attrError)

/-- `build_rule_directory`: fold every rule into the nested dictionary. -/
def build_rule_directory (rules : List Rule) :
    Except PyErr (List (String × RTree)) :=
  rules.foldlM
    (fun dir r => do
      let sn ← get_spec_name r.package
      insertPath dir (pySplit '/' sn) r.name r)
    []

/-- The full key path under which `build_rule_directory` stores a rule:
the fragments of its derived namespace path followed by its name. -/
def fullKey (r : Rule) : Except PyErr (List String) :=
  (get_spec_name r.package).map (fun sn => pySplit '/' sn ++ [r.name])

mutual

/-- All rules stored at the leaves of a tree, in entry order. -/
def leafRules : RTree → List Rule
  | .leaf r => [r]
  | .node es => leafRulesE es

/-- All rules stored at the leaves of a dict's entries, in entry order. -/
def leafRulesE : List (String × RTree) → List Rule
  | [] => []
  | (_, v) :: rest => leafRules v ++ leafRulesE rest

end

mutual

/-- The partial map from key paths to stored rules described by a tree. -/
def leafFunT : RTree → List String → Option Rule
  | .leaf r, [] => some r
  | .leaf _, _ :: _ => none
  | .node _, [] => none
  | .node es, k :: q => leafFunE es k q

/-- The partial map from key paths to stored rules described by a dict. -/
def leafFunE : List (String × RTree) → String → List String → Option Rule
  | [], _, _ => none
  | (k', v) :: rest, k, q => if k' = k then leafFunT v q else leafFunE rest k q

end

/-- The partial map from full key paths to stored rules described by a
dictionary (`[]` is never the path of a stored rule). -/
def dictFun (es : List (String × RTree)) : List String → Option Rule
  | [] => none
  | k :: q => leafFunE es k q

mutual

/-- Well-formedness of a tree value: every nested dictionary is
non-empty.  `build_rule_directory` only creates a dictionary to
immediately store something below it, so built trees satisfy this. -/
def WFT : RTree → Prop
  | .leaf _ => True
  | .node es => es ≠ [] ∧ WFE es

/-- Well-formedness of a dictionary: keys are distinct (as in a Python
dict) and every value is well-formed. -/
def WFE : List (String × RTree) → Prop
  | [] => True
  | (k, v) :: rest => WFT v ∧ lookupDict rest k = none ∧ WFE rest

end

/-- Two key paths are incomparable: neither is a prefix of the other
(in particular they are distinct). -/
def Incomp (k1 k2 : List String) : Prop :=
  ¬ k1 <+: k2 ∧ ¬ k2 <+: k1

/-- The namespace path `get_spec_name` yields for a conforming package. -/
def specNameStr (r : Rule) : String :=
  "abseil/" ++ ⟨r.package.data.drop 7⟩

/-- The full key path of a rule with a conforming package (the total
companion of `fullKey`). -/
def keyList (r : Rule) : List String :=
  pySplit '/' (specNameStr r) ++ [r.name]

/-- The first rule of the list stored under the key path `q`. -/
def findByKey (l : List Rule) (q : List String) : Option Rule :=
  l.find? (fun r => keyList r == q)

/-- Hypotheses under which the rule set is collision-free: every package
passes the prefix assertion, and the full key paths of distinct rules are
pairwise incomparable (no equal keys, no rule keyed inside another
rule's key path). -/
def GoodRules (l : List Rule) : Prop :=
  (∀ r ∈ l, startsWithAbsl r.package = true) ∧
    l.Pairwise (fun r1 r2 => Incomp (keyList r1) (keyList r2))

instance (k1 k2 : List String) : Decidable (Incomp k1 k2) :=
  inferInstanceAs (Decidable (¬ k1 <+: k2 ∧ ¬ k2 <+: k1))

instance (l : List Rule) : Decidable (GoodRules l) :=
  inferInstanceAs (Decidable (_ ∧ _))

/-- Python `sorted` on `cur_map.items()`: keys within one dict are
distinct, so the tuple comparison never reaches the values and sorting
stably by key is exact. -/
def sortEntries (es : List (String × RTree)) : List (String × RTree) :=
  List.insertionSort (fun a b => a.1 ≤ b.1) es

/-- Python `sorted` on a list of strings (code-point lexicographic). -/
def sortStrings (l : List String) : List String :=
  List.insertionSort (fun a b : String => a ≤ b) l

/-- Writer outcome of a sequence of `f.write` calls: all emitted text, or
the raised exception paired with the text emitted before it. -/
abbrev W := Except (PyErr × String) String

/-- Sequence two write outcomes, accumulating the emitted text. -/
def wseq (x y : W) : W :=
  match x with
  | .error es => .error es
  | .ok s1 =>
      match y with
      | .error (e, s2) => .error (e, s1 ++ s2)
      | .ok s2 => .ok (s1 ++ s2)

/-- A single successful `f.write`. -/
def wemit (s : String) : W := .ok s

/-- An exception raised before anything was written in this step. -/
def wfail (e : PyErr) : W := .error (e, "")

/-- Python `s * n` string repetition (for `"  " * depth`). -/
def pyRepeat (s : String) : Nat → String
  | 0 => ""
  | n + 1 => s ++ pyRepeat s n

/-- `get_spec_var`: `"s"` at depth 0, else `"s{depth}"`. -/
def get_spec_var (depth : Nat) : String :=
  if depth = 0 then "s" else "s" ++ toString depth

/-- `write_list`: first line carries the leading text and the first value
(`values[0]`, an `IndexError` on an empty list), later lines are aligned
under it with `len(leading)` spaces. -/
def write_list (leading : String) (values : List String) : W :=
  match values with
  | [] => .error (.indexError, "")
  | v :: rest =>
      .ok (leading ++ "'" ++ v ++ "'\n" ++
        String.join (rest.map
          (fun w => pyRepeat " " leading.length ++ "'" ++ w ++ "'\n")))

/-- One `s.dependency` line of `write_podspec_rule`. -/
def depLine (indent spec_var name : String) : String :=
  indent ++ spec_var ++ ".dependency '" ++ name ++ "'\n"

/-- One iteration of the dependency loop of `write_podspec_rule`:
`name = get_spec_name(dep.replace(":", "/"))` (possibly raising the
assertion) followed by the `f.write` of the dependency line. -/
def depItem (indent spec_var dep : String) : W :=
  match get_spec_name (pyReplaceColon dep) with
  | .error e => .error (e, "")
  | .ok name => .ok (depLine indent spec_var name)

/-- The dependency loop of `write_podspec_rule`:
`for dep in sorted(rule.deps): name = get_spec_name(dep.replace(":", "/")); f.write(...)`. -/
def write_deps (indent spec_var : String) (deps : List String) : W :=
  (sortStrings deps).foldl (fun acc dep => wseq acc (depItem indent spec_var dep))
    (.ok "")

/-- `write_podspec_rule`: emit the sorted public headers (if any), the
sorted sources (if any), then one line per sorted dependency. -/
def write_podspec_rule (r : Rule) (depth : Nat) : W :=
  let indent := pyRepeat "  " (depth + 1)
  let spec_var := get_spec_var depth
  wseq
    (if r.hdrs.isEmpty then .ok ""
     else write_list (indent ++ spec_var ++ ".public_header_files = ")
       (sortStrings r.hdrs))
    (wseq
      (if r.srcs.isEmpty then .ok ""
       else write_list (indent ++ spec_var ++ ".source_files = ")
         (sortStrings r.srcs))
      (write_deps indent spec_var r.deps))

/-- The `subspec ... do |sN|` opening line emitted by `write_podspec_map`. -/
def subspecLine (key : String) (depth : Nat) : String :=
  pyRepeat "  " (depth + 1) ++ get_spec_var depth ++ ".subspec '" ++ key ++
    "' do |" ++ get_spec_var (depth + 1) ++ "|\n"

/-- The `end` line closing a subspec block. -/
def endLine (depth : Nat) : String :=
  pyRepeat "  " (depth + 1) ++ "end\n"

mutual

/-- `write_podspec_map`: iterate over `sorted(cur_map.items())`, opening a
subspec block per key and dispatching on the value (nested dict vs rule). -/
def write_podspec_map (es : List (String × RTree)) (depth : Nat) : W :=
  write_entries (sortEntries es) depth
termination_by sizeOf es + 1
decreasing_by
  have hperm : ∀ (l1 l2 : List (String × RTree)), l1.Perm l2 →
      sizeOf l1 = sizeOf l2 := by
    intro l1 l2 hp
    induction hp with
    | nil => rfl
    | cons x _ ih => simp [ih]
    | swap x y l => simp; omega
    | trans _ _ ih1 ih2 => exact ih1.trans ih2
  have h2 : sizeOf (sortEntries es) = sizeOf es :=
    hperm _ _ (List.perm_insertionSort _ es)
  omega

/-- The loop body of `write_podspec_map` over the already-sorted items. -/
def write_entries (l : List (String × RTree)) (depth : Nat) : W :=
  match l with
  | [] => .ok ""
  | (key, v) :: rest =>
      wseq (wemit (subspecLine key depth))
        (wseq
          (match v with
           | .node sub => write_podspec_map sub (depth + 1)
           | .leaf r => write_podspec_rule r (depth + 1))
          (wseq (wemit (endLine depth)) (write_entries rest depth)))
termination_by sizeOf l
decreasing_by
  all_goals simp
  all_goals omega

end

/-- The dispatch performed by `write_podspec_map` on one dictionary
value (named here so congruence lemmas can state it without an inline
match). -/
def writeValue (v : RTree) (depth : Nat) : W :=
  match v with
  | .node sub => write_podspec_map sub depth
  | .leaf r => write_podspec_rule r depth

/-- The fixed part of `SPEC_TEMPLATE` with `version` and `tag`
substituted.  `re.sub` inserts the replacement texts verbatim, so on this
fixed template the result is literal-segment concatenation. -/
def renderHeader (version tag : String) : String :=
  "Pod::Spec.new do |s|\n" ++
  "  s.name     = 'abseil'\n" ++
  "  s.version  = '" ++ version ++ "'\n" ++
  "  s.summary  = 'Abseil Common Libraries (C++) from Google'\n" ++
  "  s.homepage = 'https://abseil.io'\n" ++
  "  s.license  = 'Apache License, Version 2.0'\n" ++
  "  s.authors  = \x7b 'Abseil' => 'abseil-io@googlegroups.com' \x7d\n" ++
  "  s.source = \x7b\n" ++
  "    :git => 'https://github.com/abseil/abseil-cpp.git',\n" ++
  "    :tag => '" ++ tag ++ "',\n" ++
  "  \x7d\n" ++
  "  s.ios.deployment_target = '7.0'\n" ++
  "  s.osx.deployment_target = '10.9'\n" ++
  "  s.tvos.deployment_target = '10.0'\n" ++
  "  s.watchos.deployment_target = '4.0'\n"

/-- The template substitution of `write_podspec`:
`re.sub` over `SPEC_TEMPLATE` looking up each placeholder in the argument
dictionary.  The placeholders are `version` and `tag`.  When the tag
value is `None` (as produced by `vars(parser.parse_args())` when `-t` is
omitted), the replacement function returns `None`, which CPython's
`re.sub` concatenates as the empty string: the substitution succeeds and
the header renders with an empty tag.  The `Except` result type records
that the substitution sits on an exception-carrying path (the lambda's
`args[...]` lookup could raise `KeyError`), though with this fixed
template and the argparse dictionary both placeholders always resolve. -/
def renderTemplate (version : String) (tagOpt : Option String) :
    Except PyErr String :=
  match tagOpt with
  | none => .ok (renderHeader version "")
  | some tag => .ok (renderHeader version tag)

/-- `write_podspec`: build the rule directory, take its `"abseil"` entry
(`KeyError` if absent), substitute the template, write it, write the
nested subspec blocks, and close with `end`. -/
def write_podspec (rules : List Rule) (version : String)
    (tagOpt : Option String) : W :=
  match build_rule_directory rules with
  | .error e => wfail e
  | .ok dir =>
      match lookupDict dir "abseil" with
      | none => wfail (.keyError "abseil")
      | some (.leaf _) =>
          -- unreachable in practice: every inserted path starts with
          -- "abseil" followed by at least one more fragment.  Were the
          -- value a Rule, `write_podspec_map` would raise AttributeError
          -- after the header was already written.
          match renderTemplate version tagOpt with
          | .error e => wfail e
          | .ok spec => wseq (wemit spec) (wfail .attrError)
      | some (.node es) =>
          match renderTemplate version tagOpt with
          | .error e => wfail e
          | .ok spec =>
              wseq (wemit spec)
                (wseq (write_podspec_map es 0) (wemit "end\n"))

/-- State of the output file `abseil.podspec` after a run. -/
inductive FileState where
  /-- never opened: no write and no modification happened. -/
  | untouched
  /-- opened with mode `"wt"` (truncating) and holding `content` when the
  run ended (normally or by an uncaught exception). -/
  | truncated (content : String)
  deriving Repr, DecidableEq

/-- The filter of `main`:
`filter(lambda r: r.type == "cc_library" and not r.testonly, ...)`. -/
def mainFilter (rs : List Rule) : List Rule :=
  rs.filter (fun r => r.type_ == "cc_library" && !r.testonly)

/-- `main` as in the source.  `collected` is the outcome of
`collect_rules("absl")` (Bazel query subprocesses plus XML parsing),
`version`/`tagOpt` are the parsed `-v`/`-t` command-line values.  The
first `parse_args` result has its tag defaulted to the version, but that
namespace is then discarded: `write_podspec` receives
`vars(parser.parse_args())`, a fresh parse of the same argument vector in
which an omitted tag is still `None`.  An error in the second component
is an uncaught exception, i.e. a non-zero process exit. -/
def runMain (collected : Except PyErr (List Rule)) (version : String)
    (tagOpt : Option String) : FileState × Except PyErr Unit :=
  -- first parse: `args.tag = args.version` when `-t` is omitted; the
  -- defaulted value is never read again.
  let _argsTag := tagOpt.getD version
  match collected with
  | .error e => (.untouched, .error e)
  | .ok rs =>
      let rules := mainFilter rs
      -- `open("abseil.podspec", "wt")` truncates the file, then
      -- `write_podspec(f, rules, vars(parser.parse_args()))` runs with
      -- the raw re-parsed tag.
      match write_podspec rules version tagOpt with
      | .error (e, partialOut) => (.truncated partialOut, .error e)
      | .ok content => (.truncated content, .ok ())

/-- Modelled from the spec: the reimplementation described in §9 of the
design notes, "parsing arguments once into an immutable configuration
struct passed explicitly to every stage".  The single parsed
configuration carries the tag already defaulted to the version, and
`write_podspec` receives exactly that configuration. -/
def runMainParseOnce (collected : Except PyErr (List Rule))
    (version : String) (tagOpt : Option String) :
    FileState × Except PyErr Unit :=
  let config : String × String := (version, tagOpt.getD version)
  match collected with
  | .error e => (.untouched, .error e)
  | .ok rs =>
      let rules := mainFilter rs
      match write_podspec rules config.1 (some config.2) with
      | .error (e, partialOut) => (.truncated partialOut, .error e)
      | .ok content => (.truncated content, .ok ())

/-! ### Structural clone of the renderer

`write_podspec_map` is defined by well-founded recursion (it recurses
through a sorted copy of each dictionary), so the kernel cannot evaluate
it definitionally.  The clone below renders every entry first (structural
recursion), then sorts the rendered `(key, output)` pairs by key and
concatenates them with `wseq`; since rendering one entry has no effect on
the others, this is proved equal to `write_podspec_map`
(`write_podspec_map_eq_S`) and is used to evaluate concrete runs. -/

/-- Concatenate rendered subspec blocks in the given (already sorted)
order, with the same abort-on-error accumulation as sequential writes. -/
def combineS : List (String × W) → Nat → W
  | [], _ => .ok ""
  | (k, w) :: rest, depth =>
      wseq (wemit (subspecLine k depth))
        (wseq w (wseq (wemit (endLine depth)) (combineS rest depth)))

/-- Sort rendered `(key, output)` pairs by key. -/
def sortPairsS (l : List (String × W)) : List (String × W) :=
  List.insertionSort (fun a b => a.1 ≤ b.1) l

mutual

/-- Structural-recursion clone of the renderer, tree side. -/
def renderTreeS : RTree → Nat → W
  | .leaf r, depth => write_podspec_rule r depth
  | .node es, depth => combineS (sortPairsS (renderPairsS es depth)) depth

/-- Render every entry of a dictionary (values at `depth + 1`). -/
def renderPairsS : List (String × RTree) → Nat → List (String × W)
  | [], _ => []
  | (k, v) :: rest, depth =>
      (k, renderTreeS v (depth + 1)) :: renderPairsS rest depth

end

/-- Structural clone of `write_podspec_map`. -/
def renderMapS (es : List (String × RTree)) (depth : Nat) : W :=
  combineS (sortPairsS (renderPairsS es depth)) depth

/-- Structural clone of `write_podspec` (same control flow, clone
renderer). -/
def write_podspecS (rules : List Rule) (version : String)
    (tagOpt : Option String) : W :=
  match build_rule_directory rules with
  | .error e => wfail e
  | .ok dir =>
      match lookupDict dir "abseil" with
      | none => wfail (.keyError "abseil")
      | some (.leaf _) =>
          match renderTemplate version tagOpt with
          | .error e => wfail e
          | .ok spec => wseq (wemit spec) (wfail .attrError)
      | some (.node es) =>
          match renderTemplate version tagOpt with
          | .error e => wfail e
          | .ok spec =>
              wseq (wemit spec)
                (wseq (renderMapS es 0) (wemit "end\n"))

/-- Decidable equality of `Except` outcomes (for concrete evaluation of
run results by `decide`). -/
instance {ε α : Type} [DecidableEq ε] [DecidableEq α] :
    DecidableEq (Except ε α) := fun a b =>
  match a, b with
  | .error e1, .error e2 => decidable_of_iff (e1 = e2) (by simp)
  | .error _, .ok _ => isFalse (by simp)
  | .ok _, .error _ => isFalse (by simp)
  | .ok a1, .ok a2 => decidable_of_iff (a1 = a2) (by simp)

/-! ## Concrete sample rules used by witnesses and counterexamples -/

/-- An eligible library rule, as `bazel query` would report for
`//absl/base:config`. -/
def cRuleBase : Rule where
  type_ := "cc_library"
  name := "config"
  package := "//absl/base"
  srcs := ["config.cc"]
  hdrs := ["config.h"]
  deps := []
  visibility := []
  testonly := false

/-- A test-only rule (filtered out by `main`). -/
def cTestRule : Rule where
  type_ := "cc_library"
  name := "config_test_helper"
  package := "//absl/base"
  srcs := ["config_test_helper.cc"]
  hdrs := []
  deps := []
  visibility := []
  testonly := true

/-- First of two distinct rules mapping to the same terminal key. -/
def cColl1 : Rule where
  type_ := "cc_library"
  name := "x"
  package := "//absl/a"
  srcs := ["one.cc"]
  hdrs := []
  deps := []
  visibility := []
  testonly := false

/-- Second of two distinct rules mapping to the same terminal key. -/
def cColl2 : Rule where
  type_ := "cc_library"
  name := "x"
  package := "//absl/a"
  srcs := ["two.cc"]
  hdrs := []
  deps := []
  visibility := []
  testonly := false

/-- A second eligible rule in a different package, with keys disjoint
from `cRuleBase`. -/
def cRuleTime : Rule where
  type_ := "cc_library"
  name := "time"
  package := "//absl/time"
  srcs := ["time.cc"]
  hdrs := ["clock.h", "time.h"]
  deps := ["//absl/base:config"]
  visibility := []
  testonly := false

/-- A rule with no sources and no headers (only dependencies). -/
def cEmptyRule : Rule where
  type_ := "cc_library"
  name := "errno"
  package := "//absl/base"
  srcs := []
  hdrs := []
  deps := ["//absl/base:config"]
  visibility := []
  testonly := false

/-! ## Helper lemmas on characters and dropWhile -/

theorem colonToSlash_idem (a : Char) :
    colonToSlash (colonToSlash a) = colonToSlash a := by
  by_cases h : a = ':' <;> simp [colonToSlash, h]

theorem head_dropWhile_not (p : Char → Bool) (l : List Char) (a : Char)
    (t : List Char) (h : l.dropWhile p = a :: t) : p a = false := by
  induction l with
  | nil => simp [List.dropWhile] at h
  | cons b bs ih =>
      rw [List.dropWhile_cons] at h
      by_cases hb : p b
      · exact ih (by simpa [hb] using h)
      · simp [hb] at h
        simpa [← h.1] using hb

/-! ## C8: idempotence of path normalization -/

theorem normalize_data_idem (l : List Char)
    (hd : ∀ a t, l = a :: t → decide (a = '/') = false)
    (hc : l.head? ≠ some ':') :
    ((l.map colonToSlash).dropWhile (· = '/')).map colonToSlash =
      l.map colonToSlash := by
  cases l with
  | nil => simp
  | cons a t =>
      have ha' : a ≠ '/' := by simpa using hd a t rfl
      have hac : a ≠ ':' := by simpa using hc
      have hca : colonToSlash a = a := by simp [colonToSlash, hac]
      simp only [List.map_cons, hca, List.dropWhile_cons]
      rw [if_neg (by simpa using ha')]
      simp only [List.map_cons, hca, List.map_map]
      congr 1
      exact List.map_congr_left (fun x _ => colonToSlash_idem x)

theorem normalize_one_idem (p : String)
    (h : (pyLstripSlash p).data.head? ≠ some ':') :
    pyReplaceColon (pyLstripSlash (pyReplaceColon (pyLstripSlash p))) =
      pyReplaceColon (pyLstripSlash p) := by
  have h1 : ∀ a t, p.data.dropWhile (· = '/') = a :: t →
      decide (a = '/') = false :=
    fun a t ht => head_dropWhile_not _ _ _ _ ht
  exact congrArg String.mk (normalize_data_idem _ h1 h)

/-- C8 (counterexample): normalization is not idempotent as claimed; the
path `":a"` normalizes to `"/a"`, which normalizes again to `"a"`. -/
theorem normalize_paths_not_idempotent :
    normalize_paths (normalize_paths [":a"]) ≠ normalize_paths [":a"] := by
  decide

/-- C8 (amended): `normalize_paths` is idempotent on every list of paths
in which no path's first character after its leading slashes is a colon
(`normalize_paths (normalize_paths ps) = normalize_paths ps`). -/
theorem normalize_paths_idempotent :
    ∀ ps : List String,
      (∀ p ∈ ps, (pyLstripSlash p).data.head? ≠ some ':') →
      normalize_paths (normalize_paths ps) = normalize_paths ps := by
  intro ps h
  unfold normalize_paths
  rw [List.map_map]
  exact List.map_congr_left (fun p hp => normalize_one_idem p (h p hp))

/-- C8 witness: the amended idempotence theorem applied to a concrete
list of already-colon-safe paths. -/
theorem normalize_paths_idempotent_witness :
    normalize_paths (normalize_paths ["a/b.cc", "x:y", "//lib/z"]) =
      normalize_paths ["a/b.cc", "x:y", "//lib/z"] :=
  normalize_paths_idempotent ["a/b.cc", "x:y", "//lib/z"] (by decide)

/-! ## C4: subprocess failure is fatal, output untouched -/

/-- C4: if the Bazel build-graph query subprocess fails (non-zero exit or
command not found, i.e. `collect_rules` raises), the run fails with that
uncaught exception (non-zero process exit) and the output manifest file
is never opened, written, or modified. -/
theorem runMain_subprocess_failure (version : String) (tagOpt : Option String) :
    runMain (.error .calledProcessError) version tagOpt =
      (.untouched, .error .calledProcessError) := rfl

/-! ## C9: empty eligible rule set crashes after truncating the output -/

/-- C9: when no eligible rule survives the filter, `write_podspec` looks
up the missing `"abseil"` key and raises `KeyError` after
`open("abseil.podspec", "wt")` already truncated the output file, which
is left behind empty. -/
theorem runMain_no_eligible_rules (collected : List Rule) (version : String)
    (tagOpt : Option String) (h : mainFilter collected = []) :
    runMain (.ok collected) version tagOpt =
      (.truncated "", .error (.keyError "abseil")) := by
  simp only [runMain, h]
  rfl

/-- C9 witness: a run whose only collected rule is test-only (so the
filtered set is empty) ends in `KeyError "abseil"` with an empty
truncated output file. -/
theorem runMain_no_eligible_rules_witness :
    runMain (.ok [cTestRule]) "1.0" (some "v1.0") =
      (.truncated "", .error (.keyError "abseil")) :=
  runMain_no_eligible_rules [cTestRule] "1.0" (some "v1.0") rfl

end PodspecGen


namespace PodspecGen

/-! ## C3: terminal-key collisions silently drop the earlier rule -/

theorem except_ok_bind {ε α β : Type} (a : α) (f : α → Except ε β) :
    (Except.ok a >>= f) = f a := rfl

theorem except_error_bind {ε α β : Type} (e : ε) (f : α → Except ε β) :
    ((Except.error e : Except ε α) >>= f) = Except.error e := rfl

theorem insertPath_nil_ok (frags : List String) (name : String) (r : Rule) :
    ∃ d, insertPath [] frags name r = .ok d := by
  induction frags with
  | nil => exact ⟨[(name, .leaf r)], rfl⟩
  | cons f rest ih =>
      obtain ⟨d, hd⟩ := ih
      exact ⟨[(f, .node d)], by simp [insertPath, lookupDict, hd, Except.map]⟩

/-- Re-inserting along the same fragment path with the same terminal name
overwrites: the dictionary is as if only the second rule was inserted. -/
theorem insertPath_overwrite (frags : List String) (name : String)
    (r1 r2 : Rule) (d1 : List (String × RTree))
    (h : insertPath [] frags name r1 = .ok d1) :
    insertPath d1 frags name r2 = insertPath [] frags name r2 := by
  induction frags generalizing d1 with
  | nil =>
      simp only [insertPath, assocSet, Except.ok.injEq] at h
      subst h
      simp [insertPath, assocSet]
  | cons f rest ih =>
      simp only [insertPath, lookupDict] at h
      cases h1 : insertPath [] rest name r1 with
      | error e => rw [h1] at h; simp [Except.map] at h
      | ok sub1 =>
          rw [h1] at h
          simp only [Except.map, Except.ok.injEq, List.nil_append] at h
          subst h
          have hl : lookupDict [(f, RTree.node sub1)] f = some (.node sub1) := by
            simp [lookupDict]
          simp only [insertPath, hl, lookupDict, List.nil_append, ite_true,
            if_true]
          rw [ih sub1 h1]
          cases h2 : insertPath [] rest name r2 with
          | error e => simp [Except.map]
          | ok sub2 => simp [Except.map, assocSet]

/-- C3 (counterexample): two distinct eligible rules whose package and
name coincide map to the same terminal key, yet only the later one
remains reachable in the built dictionary — the first is silently
dropped, contradicting the claim that both remain reachable. -/
theorem build_drops_colliding_rule :
    cColl1 ≠ cColl2 ∧ fullKey cColl1 = fullKey cColl2 ∧
    ∃ dir, build_rule_directory [cColl1, cColl2] = .ok dir ∧
      cColl2 ∈ leafRulesE dir ∧ cColl1 ∉ leafRulesE dir :=
  ⟨by decide, by decide, _, rfl, by decide, by decide⟩

/-- C3 (amended): when two rules collide on the same terminal key (same
package and same rule name), the indexer keeps only the last-inserted
rule: building from both rules yields exactly the dictionary built from
the later rule alone, and the earlier rule is silently dropped. -/
theorem build_collision_last_wins (r1 r2 : Rule)
    (hp : r1.package = r2.package) (hn : r1.name = r2.name) :
    build_rule_directory [r1, r2] = build_rule_directory [r2] := by
  unfold build_rule_directory
  simp only [List.foldlM_cons, List.foldlM_nil]
  rw [hp, hn]
  cases hsn : get_spec_name r2.package with
  | error e => rfl
  | ok sn =>
      obtain ⟨d1, hd1⟩ := insertPath_nil_ok (pySplit '/' sn) r2.name r1
      simp only [except_ok_bind]
      rw [hd1, except_ok_bind, insertPath_overwrite _ _ _ r2 _ hd1]

/-- C3 witness: the last-write-wins theorem applied to the concrete
colliding pair. -/
theorem build_collision_last_wins_witness :
    build_rule_directory [cColl1, cColl2] = build_rule_directory [cColl2] :=
  build_collision_last_wins cColl1 cColl2 rfl rfl

end PodspecGen
namespace PodspecGen

/-! ## Shared lemmas on the writer combinators and the dependency loop -/

theorem wseq_ok_empty (w : W) : wseq (.ok "") w = w := by
  cases w with
  | error p => obtain ⟨e, s⟩ := p; rfl
  | ok s => rfl

theorem wseq_ok_error (w : W) (s1 : String) (e : PyErr) (s : String)
    (h : wseq (.ok s1) w = .error (e, s)) :
    ∃ s2, w = .error (e, s2) ∧ s = s1 ++ s2 := by
  cases w with
  | error p =>
      obtain ⟨e', s'⟩ := p
      simp only [wseq] at h
      obtain ⟨he, hs⟩ := Prod.mk.injEq .. ▸ (Except.error.injEq .. ▸ h)
      exact ⟨s', by simp_all, hs.symm⟩
  | ok s' => simp [wseq] at h

theorem get_spec_name_error (label : String) (e : PyErr)
    (h : get_spec_name label = .error e) : e = .assertionError label := by
  unfold get_spec_name at h
  split at h
  · exact absurd h (by simp)
  · simpa using h.symm

theorem depItem_error (indent sv dep : String) (e : PyErr) (s : String)
    (h : depItem indent sv dep = .error (e, s)) :
    e = .assertionError (pyReplaceColon dep) := by
  unfold depItem at h
  cases hg : get_spec_name (pyReplaceColon dep) with
  | error e' =>
      rw [hg] at h
      have he := get_spec_name_error _ _ hg
      simp only [Except.error.injEq, Prod.mk.injEq] at h
      exact h.1.symm.trans he
  | ok n => rw [hg] at h; simp at h

/-- Every error produced by the dependency-loop fold is an assertion
error (the only raising step is `get_spec_name`). -/
theorem foldl_wseq_assert (f : String → W)
    (hf : ∀ d e s, f d = .error (e, s) → ∃ m, e = PyErr.assertionError m)
    (l : List String) :
    ∀ (acc : W),
      (∀ e s, acc = .error (e, s) → ∃ m, e = PyErr.assertionError m) →
      ∀ e s, l.foldl (fun a d => wseq a (f d)) acc = .error (e, s) →
        ∃ m, e = PyErr.assertionError m := by
  induction l with
  | nil => intro acc hacc e s h; exact hacc e s h
  | cons d ds ih =>
      intro acc hacc e s h
      refine ih (wseq acc (f d)) ?_ e s h
      intro e' s' h'
      cases hca : acc with
      | error p =>
          obtain ⟨e2, s2⟩ := p
          rw [hca] at h'
          simp only [wseq] at h'
          obtain ⟨he, _⟩ := Prod.mk.injEq .. ▸ (Except.error.injEq .. ▸ h')
          exact he ▸ hacc e2 s2 (by rw [hca])
      | ok s1 =>
          rw [hca] at h'
          obtain ⟨s2, hw, _⟩ := wseq_ok_error _ _ _ _ h'
          exact hf d e' s2 hw

/-- If some element of the fold raises, the whole fold raises. -/
theorem foldl_wseq_error_of_bad (f : String → W) (l : List String) :
    ∀ (acc : W),
      ((∃ d ∈ l, ∃ p, f d = .error p) ∨ (∃ p, acc = .error p)) →
      ∃ p, l.foldl (fun a d => wseq a (f d)) acc = .error p := by
  induction l with
  | nil =>
      intro acc h
      rcases h with ⟨d, hd, _⟩ | h
      · simp at hd
      · exact h
  | cons d ds ih =>
      intro acc h
      simp only [List.foldl_cons]
      apply ih
      rcases h with ⟨d', hd', p, hp⟩ | ⟨p, hp⟩
      · rcases List.mem_cons.mp hd' with rfl | hmem
        · right
          cases hca : acc with
          | error q => exact ⟨q, by simp [wseq]⟩
          | ok s1 =>
              obtain ⟨pe, ps⟩ := p
              exact ⟨(pe, s1 ++ ps), by rw [hp]; rfl⟩
        · exact Or.inl ⟨d', hmem, p, hp⟩
      · right
        obtain ⟨pe, ps⟩ := p
        exact ⟨(pe, ps), by rw [hp]; rfl⟩

theorem write_deps_error (indent sv : String) (deps : List String)
    (e : PyErr) (s : String)
    (h : write_deps indent sv deps = .error (e, s)) :
    ∃ m, e = PyErr.assertionError m := by
  unfold write_deps at h
  refine foldl_wseq_assert _ ?_ (sortStrings deps) (.ok "") ?_ e s h
  · intro d e' s' h'
    exact ⟨_, depItem_error _ _ _ _ _ h'⟩
  · intro e' s' h'
    exact absurd h' (by simp)

theorem write_deps_assert_of_bad_dep (indent sv : String) (deps : List String)
    (dep : String) (hmem : dep ∈ deps)
    (hbad : startsWithAbsl (pyReplaceColon dep) = false) :
    ∃ m s, write_deps indent sv deps = .error (.assertionError m, s) := by
  have hmem' : dep ∈ sortStrings deps :=
    ((List.perm_insertionSort _ deps).mem_iff).mpr hmem
  have hfd : depItem indent sv dep =
      .error (.assertionError (pyReplaceColon dep), "") := by
    unfold depItem get_spec_name
    rw [hbad]
    rfl
  obtain ⟨p, hp⟩ := foldl_wseq_error_of_bad (depItem indent sv)
    (sortStrings deps) (.ok "") (Or.inl ⟨dep, hmem', _, hfd⟩)
  obtain ⟨e, s⟩ := p
  obtain ⟨m, hm⟩ := write_deps_error indent sv deps e s (by
    unfold write_deps; exact hp)
  exact ⟨m, s, by rw [← hm]; unfold write_deps; exact hp⟩

theorem sortStrings_ne_nil (l : List String) (h : l ≠ []) :
    sortStrings l ≠ [] := by
  intro hc
  apply h
  have hp := List.perm_insertionSort (fun a b : String => a ≤ b) l
  rw [show List.insertionSort (fun a b : String => a ≤ b) l = sortStrings l
    from rfl, hc] at hp
  exact (List.nil_perm.mp hp)

/-- The guarded header/source emitters never fail: the guard skips empty
lists and `write_list` succeeds on every non-empty list. -/
theorem ifEmpty_write_list_ok (l : List String) (leading : String) :
    ∃ s, (if l.isEmpty then (Except.ok "" : W)
          else write_list leading (sortStrings l)) = .ok s := by
  cases hl : l with
  | nil => exact ⟨"", rfl⟩
  | cons a t =>
      simp only [List.isEmpty_cons, if_neg, Bool.false_eq_true,
        not_false_eq_true, ite_false]
      cases hs : sortStrings (a :: t) with
      | nil => exact absurd hs (sortStrings_ne_nil _ (by simp))
      | cons b u => exact ⟨_, rfl⟩

theorem write_podspec_rule_error_assert (r : Rule) (depth : Nat)
    (e : PyErr) (s : String)
    (h : write_podspec_rule r depth = .error (e, s)) :
    ∃ m, e = PyErr.assertionError m := by
  obtain ⟨sa, ha⟩ := ifEmpty_write_list_ok r.hdrs
    (pyRepeat "  " (depth + 1) ++ get_spec_var depth ++ ".public_header_files = ")
  obtain ⟨sb, hb⟩ := ifEmpty_write_list_ok r.srcs
    (pyRepeat "  " (depth + 1) ++ get_spec_var depth ++ ".source_files = ")
  simp only [write_podspec_rule] at h
  rw [ha, hb] at h
  obtain ⟨s2, hw, _⟩ := wseq_ok_error _ _ _ _ h
  obtain ⟨s3, hw2, _⟩ := wseq_ok_error _ _ _ _ hw
  exact write_deps_error _ _ _ _ _ hw2

end PodspecGen
namespace PodspecGen

/-! ## C10: write_list's unguarded first-element access is unreachable -/

/-- C10: `write_list` does access `values[0]` unguarded (first conjunct:
the `IndexError` on an empty list), but both call sites in
`write_podspec_rule` guard it with a non-emptiness check, so rendering a
rule never raises `IndexError` (second conjunct), and a rule with empty
header and source lists emits nothing beyond its dependency lines (third
conjunct). -/
theorem write_list_guarded :
    (∀ leading, write_list leading [] = .error (.indexError, "")) ∧
    (∀ (r : Rule) (depth : Nat) (e : PyErr) (s : String),
        write_podspec_rule r depth = .error (e, s) → e ≠ .indexError) ∧
    (∀ (r : Rule) (depth : Nat), r.hdrs = [] → r.srcs = [] →
        write_podspec_rule r depth =
          write_deps (pyRepeat "  " (depth + 1)) (get_spec_var depth) r.deps) := by
  refine ⟨fun _ => rfl, ?_, ?_⟩
  · intro r depth e s h
    obtain ⟨m, hm⟩ := write_podspec_rule_error_assert r depth e s h
    simp [hm]
  · intro r depth hh hs
    simp only [write_podspec_rule, hh, hs, List.isEmpty_nil, if_pos]
    rw [wseq_ok_empty, wseq_ok_empty]

/-- C10 witness: rendering a concrete rule with empty headers and sources
emits only its dependency lines. -/
theorem write_list_guarded_witness :
    write_podspec_rule cEmptyRule 0 =
      write_deps (pyRepeat "  " (0 + 1)) (get_spec_var 0) cEmptyRule.deps :=
  write_list_guarded.2.2 cEmptyRule 0 rfl rfl

/-! ## C7: the prefix assertion of namespace-path derivation -/

/-- C7: every label passed through `get_spec_name` (a rule's package, or
a dependency label after colon-to-slash conversion) must start with
`"//absl/"`: a conforming label `"//absl/" ++ rest` maps to
`"abseil/" ++ rest` (conjuncts 1 and 3), a non-conforming label raises
the assertion (conjunct 2), and a non-conforming dependency label makes
`write_podspec_rule` — and hence the whole run — fail with an assertion
error (conjunct 4). -/
theorem get_spec_name_contract :
    (∀ rest : String, get_spec_name ("//absl/" ++ rest) = .ok ("abseil/" ++ rest)) ∧
    (∀ label : String, startsWithAbsl label = false →
        get_spec_name label = .error (.assertionError label)) ∧
    (∀ label : String, startsWithAbsl label = true →
        ∃ rest : String, label = "//absl/" ++ rest ∧
          get_spec_name label = .ok ("abseil/" ++ rest)) ∧
    (∀ (r : Rule) (depth : Nat) (dep : String), dep ∈ r.deps →
        startsWithAbsl (pyReplaceColon dep) = false →
        ∃ m s, write_podspec_rule r depth = .error (.assertionError m, s)) := by
  have part1 : ∀ rest : String,
      get_spec_name ("//absl/" ++ rest) = .ok ("abseil/" ++ rest) := by
    intro rest
    have hpre : startsWithAbsl ("//absl/" ++ rest) = true := by
      unfold startsWithAbsl
      rw [String.data_append]
      exact List.isPrefixOf_iff_prefix.mpr (List.prefix_append _ _)
    have hdrop : ("//absl/" ++ rest).data.drop 7 = rest.data := by
      rw [String.data_append]
      have h7 : ("//absl/" : String).data.length = 7 := rfl
      rw [← h7, List.drop_left]
    simp only [get_spec_name, hpre, if_pos, ite_true, hdrop]
  refine ⟨part1, ?_, ?_, ?_⟩
  · intro label h
    simp [get_spec_name, h]
  · intro label h
    obtain ⟨t, ht⟩ := List.isPrefixOf_iff_prefix.mp h
    refine ⟨⟨t⟩, ?_, ?_⟩
    · apply String.ext
      rw [String.data_append, ht]
    · have : label = "//absl/" ++ ⟨t⟩ := by
        apply String.ext
        rw [String.data_append, ht]
      rw [this]
      exact part1 ⟨t⟩
  · intro r depth dep hmem hbad
    obtain ⟨m, s0, hd⟩ := write_deps_assert_of_bad_dep
      (pyRepeat "  " (depth + 1)) (get_spec_var depth) r.deps dep hmem hbad
    obtain ⟨sa, ha⟩ := ifEmpty_write_list_ok r.hdrs
      (pyRepeat "  " (depth + 1) ++ get_spec_var depth ++ ".public_header_files = ")
    obtain ⟨sb, hb⟩ := ifEmpty_write_list_ok r.srcs
      (pyRepeat "  " (depth + 1) ++ get_spec_var depth ++ ".source_files = ")
    refine ⟨m, sa ++ (sb ++ s0), ?_⟩
    simp only [write_podspec_rule]
    rw [ha, hb, hd]
    rfl

/-- C7 witness: the contract applied to a conforming and to a
non-conforming concrete label. -/
theorem get_spec_name_contract_witness :
    get_spec_name ("//absl/" ++ "base") = .ok ("abseil/" ++ "base") ∧
    get_spec_name ":config" = .error (.assertionError ":config") :=
  ⟨get_spec_name_contract.1 "base",
   get_spec_name_contract.2.1 ":config" (by decide)⟩

end PodspecGen
namespace PodspecGen

/-! ## C6: filtered-out rules never reach the rendered tree -/

theorem leafRulesE_append (a b : List (String × RTree)) :
    leafRulesE (a ++ b) = leafRulesE a ++ leafRulesE b := by
  induction a with
  | nil => rfl
  | cons kv rest ih =>
      obtain ⟨k, v⟩ := kv
      simp [leafRulesE, ih, List.append_assoc]

theorem leafRules_lookup_subset (es : List (String × RTree)) (k : String)
    (v : RTree) (h : lookupDict es k = some v) :
    ∀ r ∈ leafRules v, r ∈ leafRulesE es := by
  induction es with
  | nil => simp [lookupDict] at h
  | cons kv rest ih =>
      obtain ⟨k', v'⟩ := kv
      intro r hr
      simp only [lookupDict] at h
      by_cases hk : k' = k
      · rw [if_pos hk] at h
        obtain rfl : v' = v := by simpa using h
        simp [leafRulesE, hr]
      · rw [if_neg hk] at h
        simp [leafRulesE, ih h r hr]

theorem leafRulesE_assocSet_subset (es : List (String × RTree)) (k : String)
    (v : RTree) :
    ∀ r ∈ leafRulesE (assocSet es k v),
      r ∈ leafRulesE es ∨ r ∈ leafRules v := by
  induction es with
  | nil =>
      intro r hr
      simp only [assocSet, leafRulesE, leafRules] at hr
      exact Or.inr (by simpa using hr)
  | cons kv rest ih =>
      obtain ⟨k', v'⟩ := kv
      intro r hr
      simp only [assocSet] at hr
      by_cases hk : k' = k
      · rw [if_pos hk] at hr
        simp only [leafRulesE, List.mem_append] at hr
        rcases hr with hr | hr
        · exact Or.inr hr
        · exact Or.inl (by simp [leafRulesE, hr])
      · rw [if_neg hk] at hr
        simp only [leafRulesE, List.mem_append] at hr
        rcases hr with hr | hr
        · exact Or.inl (by simp [leafRulesE, hr])
        · rcases ih r hr with h | h
          · exact Or.inl (by simp [leafRulesE, h])
          · exact Or.inr h

theorem insertPath_leaf_subset (frags : List String)
    (es : List (String × RTree)) (name : String) (r : Rule)
    (es' : List (String × RTree)) (h : insertPath es frags name r = .ok es') :
    ∀ x ∈ leafRulesE es', x ∈ leafRulesE es ∨ x = r := by
  induction frags generalizing es es' with
  | nil =>
      simp only [insertPath, Except.ok.injEq] at h
      subst h
      intro x hx
      rcases leafRulesE_assocSet_subset es name (.leaf r) x hx with h | h
      · exact Or.inl h
      · exact Or.inr (by simpa [leafRules] using h)
  | cons f rest ih =>
      cases hl : lookupDict es f with
      | none =>
          simp only [insertPath, hl] at h
          cases hsub : insertPath [] rest name r with
          | error e => rw [hsub] at h; simp [Except.map] at h
          | ok sub =>
              rw [hsub] at h
              simp only [Except.map, Except.ok.injEq] at h
              subst h
              intro x hx
              rw [leafRulesE_append] at hx
              rcases List.mem_append.mp hx with hx | hx
              · exact Or.inl hx
              · have hx' : x ∈ leafRulesE sub := by
                  simpa [leafRulesE, leafRules] using hx
                rcases ih [] sub hsub x hx' with h0 | h0
                · simp [leafRulesE] at h0
                · exact Or.inr h0
      | some v =>
          cases v with
          | leaf r0 => simp [insertPath, hl] at h
          | node sub =>
              simp only [insertPath, hl] at h
              cases hsub : insertPath sub rest name r with
              | error e => rw [hsub] at h; simp [Except.map] at h
              | ok sub2 =>
                  rw [hsub] at h
                  simp only [Except.map, Except.ok.injEq] at h
                  subst h
                  intro x hx
                  rcases leafRulesE_assocSet_subset es f (.node sub2) x hx with
                    h0 | h0
                  · exact Or.inl h0
                  · have hx' : x ∈ leafRulesE sub2 := by
                      simpa [leafRules] using h0
                    rcases ih sub sub2 hsub x hx' with h1 | h1
                    · exact Or.inl
                        (leafRules_lookup_subset es f (.node sub) hl x
                          (by simpa [leafRules] using h1))
                    · exact Or.inr h1

theorem build_fold_subset (rules : List Rule) :
    ∀ (d0 dF : List (String × RTree)),
      List.foldlM
        (fun dir r => do
          let sn ← get_spec_name r.package
          insertPath dir (pySplit '/' sn) r.name r)
        d0 rules = .ok dF →
      ∀ x ∈ leafRulesE dF, x ∈ leafRulesE d0 ∨ x ∈ rules := by
  induction rules with
  | nil =>
      intro d0 dF h x hx
      simp only [List.foldlM_nil] at h
      obtain rfl : d0 = dF := by simpa [pure, Except.pure] using h
      exact Or.inl hx
  | cons r rs ih =>
      intro d0 dF h x hx
      simp only [List.foldlM_cons] at h
      cases hsn : get_spec_name r.package with
      | error e => rw [hsn] at h; simp [except_error_bind] at h
      | ok sn =>
          rw [hsn, except_ok_bind] at h
          cases hins : insertPath d0 (pySplit '/' sn) r.name r with
          | error e => rw [hins] at h; simp [except_error_bind] at h
          | ok d1 =>
              rw [hins, except_ok_bind] at h
              rcases ih d1 dF h x hx with h1 | h1
              · rcases insertPath_leaf_subset _ _ _ _ _ hins x h1 with h2 | h2
                · exact Or.inl h2
                · exact Or.inr (by simp [h2])
              · exact Or.inr (by simp [h1])

/-- C6: a rule that is test-only or whose kind is not `cc_library` is
removed by `main`'s filter and therefore never stored in the rule
directory that the manifest is rendered from: it is not among the leaf
rules of the built tree. -/
theorem filtered_rules_not_rendered (collected : List Rule) (r : Rule)
    (dir : List (String × RTree))
    (hbad : r.testonly = true ∨ r.type_ ≠ "cc_library")
    (hbuild : build_rule_directory (mainFilter collected) = .ok dir) :
    r ∉ leafRulesE dir := by
  intro hmem
  unfold build_rule_directory at hbuild
  rcases build_fold_subset (mainFilter collected) [] dir hbuild r hmem with h | h
  · simp [leafRulesE] at h
  · unfold mainFilter at h
    have hp := List.of_mem_filter h
    simp only [Bool.and_eq_true, beq_iff_eq, Bool.not_eq_true'] at hp
    rcases hbad with hbad | hbad
    · rw [hp.2] at hbad; cases hbad
    · exact hbad hp.1

/-- C6 witness: the test-only sample rule is absent from the tree built
from a collected list containing it alongside an eligible rule. -/
theorem filtered_rules_not_rendered_witness :
    cTestRule ∉ leafRulesE
      [("abseil", RTree.node
        [("base", RTree.node [("config", RTree.leaf cRuleBase)])])] :=
  filtered_rules_not_rendered [cTestRule, cRuleBase] cTestRule _
    (Or.inl rfl) rfl

end PodspecGen

namespace PodspecGen

/-! ## Bridge: the well-founded renderer equals its structural clone -/

theorem sizeOf_perm_list {α : Type} [SizeOf α] {l1 l2 : List α}
    (h : l1.Perm l2) : sizeOf l1 = sizeOf l2 := by
  induction h with
  | nil => rfl
  | cons x _ ih => simp [ih]
  | swap x y l => simp; omega
  | trans _ _ ih1 ih2 => exact ih1.trans ih2

theorem sizeOf_sortEntries (es : List (String × RTree)) :
    sizeOf (sortEntries es) = sizeOf es :=
  sizeOf_perm_list (List.perm_insertionSort _ es)

theorem renderPairsS_eq_map (es : List (String × RTree)) (depth : Nat) :
    renderPairsS es depth =
      es.map (fun kv => (kv.1, renderTreeS kv.2 (depth + 1))) := by
  induction es with
  | nil => rfl
  | cons kv rest ih =>
      obtain ⟨k, v⟩ := kv
      simp [renderPairsS, ih]

theorem orderedInsert_map_key (f : (String × RTree) → (String × W))
    (hf : ∀ kv, (f kv).1 = kv.1) (a : String × RTree)
    (l : List (String × RTree)) :
    List.orderedInsert (fun x y => x.1 ≤ y.1) (f a) (l.map f) =
      (List.orderedInsert (fun x y => x.1 ≤ y.1) a l).map f := by
  induction l with
  | nil => rfl
  | cons b t ih =>
      simp only [List.map_cons, List.orderedInsert]
      by_cases hab : a.1 ≤ b.1
      · rw [if_pos (show (f a).1 ≤ (f b).1 by rw [hf, hf]; exact hab),
          if_pos hab, List.map_cons, List.map_cons]
      · rw [if_neg (show ¬ (f a).1 ≤ (f b).1 by rw [hf, hf]; exact hab),
          if_neg hab, List.map_cons, ih]

theorem insertionSort_map_key (f : (String × RTree) → (String × W))
    (hf : ∀ kv, (f kv).1 = kv.1) (l : List (String × RTree)) :
    sortPairsS (l.map f) = (sortEntries l).map f := by
  induction l with
  | nil => rfl
  | cons a t ih =>
      simp only [List.map_cons, sortPairsS, sortEntries, List.insertionSort]
        at *
      rw [ih, orderedInsert_map_key f hf]

theorem write_entries_eq_combineS (depth : Nat) (l : List (String × RTree))
    (hv : ∀ k sub, (k, RTree.node sub) ∈ l →
      write_podspec_map sub (depth + 1) = renderMapS sub (depth + 1)) :
    write_entries l depth =
      combineS (l.map (fun kv => (kv.1, renderTreeS kv.2 (depth + 1)))) depth := by
  induction l with
  | nil => rw [write_entries.eq_def]; rfl
  | cons kv rest ih =>
      obtain ⟨k, v⟩ := kv
      have htail : write_entries rest depth =
          combineS (rest.map (fun kv => (kv.1, renderTreeS kv.2 (depth + 1))))
            depth :=
        ih (fun k' sub' hm => hv k' sub' (List.mem_cons_of_mem _ hm))
      cases v with
      | leaf r =>
          have hstep : write_entries ((k, RTree.leaf r) :: rest) depth =
              wseq (wemit (subspecLine k depth))
                (wseq (write_podspec_rule r (depth + 1))
                  (wseq (wemit (endLine depth)) (write_entries rest depth))) := by
            rw [write_entries.eq_def]
          rw [hstep, htail]
          rfl
      | node sub =>
          have hstep : write_entries ((k, RTree.node sub) :: rest) depth =
              wseq (wemit (subspecLine k depth))
                (wseq (write_podspec_map sub (depth + 1))
                  (wseq (wemit (endLine depth)) (write_entries rest depth))) := by
            rw [write_entries.eq_def]
          rw [hstep, htail, hv k sub (List.mem_cons_self _ _)]
          rfl

theorem write_podspec_map_eq_S_aux :
    ∀ n : Nat, ∀ es : List (String × RTree), sizeOf es ≤ n →
      ∀ depth, write_podspec_map es depth = renderMapS es depth := by
  intro n
  induction n using Nat.strong_induction_on with
  | _ n ih =>
      intro es hes depth
      have h1 : write_podspec_map es depth =
          write_entries (sortEntries es) depth := by
        simp [write_podspec_map]
      rw [h1]
      unfold renderMapS
      rw [renderPairsS_eq_map,
        insertionSort_map_key (fun kv => (kv.1, renderTreeS kv.2 (depth + 1)))
          (fun kv => rfl) es]
      apply write_entries_eq_combineS
      intro k sub hmem
      have h2 := List.sizeOf_lt_of_mem hmem
      have h3 : sizeOf (sortEntries es) = sizeOf es := sizeOf_sortEntries es
      simp only [Prod.mk.sizeOf_spec, RTree.node.sizeOf_spec] at h2
      have hlt : sizeOf sub < n := by omega
      exact ih (sizeOf sub) hlt sub le_rfl (depth + 1)

theorem write_podspec_map_eq_S (es : List (String × RTree)) (depth : Nat) :
    write_podspec_map es depth = renderMapS es depth :=
  write_podspec_map_eq_S_aux (sizeOf es) es le_rfl depth

theorem write_podspec_eq_S (rules : List Rule) (version : String)
    (tagOpt : Option String) :
    write_podspec rules version tagOpt = write_podspecS rules version tagOpt := by
  cases hbd : build_rule_directory rules with
  | error e => simp [write_podspec, write_podspecS, hbd]
  | ok dir =>
      cases hld : lookupDict dir "abseil" with
      | none => simp [write_podspec, write_podspecS, hbd, hld]
      | some t =>
          cases t with
          | leaf r =>
              cases hrt : renderTemplate version tagOpt with
              | error e => simp [write_podspec, write_podspecS, hbd, hld, hrt]
              | ok spec => simp [write_podspec, write_podspecS, hbd, hld, hrt]
          | node es =>
              cases hrt : renderTemplate version tagOpt with
              | error e => simp [write_podspec, write_podspecS, hbd, hld, hrt]
              | ok spec =>
                  simp [write_podspec, write_podspecS, hbd, hld, hrt,
                    write_podspec_map_eq_S]

end PodspecGen
namespace PodspecGen

/-! ## Cancellation helpers for comparing writer outputs -/

theorem string_append_cancel_left {a b c : String} (h : a ++ b = a ++ c) :
    b = c := by
  apply String.ext
  have hd := congrArg String.data h
  rw [String.data_append, String.data_append] at hd
  exact List.append_cancel_left hd

theorem string_append_cancel_right {a b c : String} (h : a ++ c = b ++ c) :
    a = b := by
  apply String.ext
  have hd := congrArg String.data h
  rw [String.data_append, String.data_append] at hd
  exact List.append_cancel_right hd

theorem wseq_wemit_cancel_left (H : String) (x y : W)
    (h : wseq (wemit H) x = wseq (wemit H) y) : x = y := by
  cases x with
  | error p =>
      obtain ⟨e1, s1⟩ := p
      cases y with
      | error q =>
          obtain ⟨e2, s2⟩ := q
          simp only [wseq, wemit, Except.error.injEq, Prod.mk.injEq] at h
          rw [h.1, string_append_cancel_left h.2]
      | ok s2 => simp [wseq, wemit] at h
  | ok s1 =>
      cases y with
      | error q =>
          obtain ⟨e2, s2⟩ := q
          simp [wseq, wemit] at h
      | ok s2 =>
          simp only [wseq, wemit, Except.ok.injEq] at h
          rw [string_append_cancel_left h]

theorem wseq_wemit_cancel_right (E : String) (x y : W)
    (h : wseq x (wemit E) = wseq y (wemit E)) : x = y := by
  cases x with
  | error p =>
      cases y with
      | error q => exact h
      | ok s2 => simp [wseq, wemit] at h
  | ok s1 =>
      cases y with
      | error q => simp [wseq, wemit] at h
      | ok s2 =>
          simp only [wseq, wemit, Except.ok.injEq] at h
          rw [string_append_cancel_right h]

/-! ## C2: re-parsing the arguments is observable -/

theorem runMainParseOnce_of_ok (collected : List Rule) (version : String)
    (tagOpt : Option String) (s : String)
    (h : write_podspec (mainFilter collected) version
        (some (tagOpt.getD version)) = .ok s) :
    runMainParseOnce (.ok collected) version tagOpt =
      (.truncated s, .ok ()) := by
  unfold runMainParseOnce
  show (match write_podspec (mainFilter collected) version
          (some (tagOpt.getD version)) with
        | Except.error (e, partialOut) =>
            (FileState.truncated partialOut, Except.error e)
        | Except.ok content => (FileState.truncated content, Except.ok ())) = _
  rw [h]

/-! ## C5 (counterexample): rendering is not invariant for colliding sets -/

set_option maxRecDepth 8192 in
/-- C5 (counterexample): the two distinct colliding rules `cColl1` and
`cColl2` form one set, but rendering its two enumerations (the collected
list order is filesystem-dependent) yields different manifests — the
later rule overwrites the earlier, so the emitted source list differs. -/
theorem write_podspec_not_order_invariant :
    [cColl1, cColl2].Perm [cColl2, cColl1] ∧
    write_podspec [cColl1, cColl2] "1.0" (some "v1.0") ≠
      write_podspec [cColl2, cColl1] "1.0" (some "v1.0") := by
  constructor
  · decide
  · intro h
    have e1 : write_podspec [cColl1, cColl2] "1.0" (some "v1.0") =
        wseq (wemit (renderHeader "1.0" "v1.0"))
          (wseq (write_podspec_map [("a", RTree.node [("x", RTree.leaf cColl2)])] 0)
            (wemit "end\n")) := rfl
    have e2 : write_podspec [cColl2, cColl1] "1.0" (some "v1.0") =
        wseq (wemit (renderHeader "1.0" "v1.0"))
          (wseq (write_podspec_map [("a", RTree.node [("x", RTree.leaf cColl1)])] 0)
            (wemit "end\n")) := rfl
    rw [e1, e2] at h
    have h2 := wseq_wemit_cancel_left _ _ _ h
    have h3 := wseq_wemit_cancel_right _ _ _ h2
    rw [write_podspec_map_eq_S, write_podspec_map_eq_S] at h3
    exact absurd h3 (by decide)

end PodspecGen
namespace PodspecGen

/-! ## C5 groundwork: dictionary and well-formedness lemmas -/

theorem leafFunE_eq (es : List (String × RTree)) (k : String) (q : List String) :
    leafFunE es k q = (lookupDict es k).bind (fun v => leafFunT v q) := by
  induction es with
  | nil => rfl
  | cons kv rest ih =>
      obtain ⟨k0, v0⟩ := kv
      by_cases hk : k0 = k
      · simp [leafFunE, lookupDict, hk]
      · simp [leafFunE, lookupDict, hk, ih]

theorem dictFun_cons (es : List (String × RTree)) (k : String) (q : List String) :
    dictFun es (k :: q) = (lookupDict es k).bind (fun v => leafFunT v q) :=
  leafFunE_eq es k q

theorem dictFun_nil_path (es : List (String × RTree)) : dictFun es [] = none := rfl

theorem lookupDict_append_some (es l : List (String × RTree)) (k : String)
    (v : RTree) (h : lookupDict es k = some v) :
    lookupDict (es ++ l) k = some v := by
  induction es with
  | nil => simp [lookupDict] at h
  | cons kv rest ih =>
      obtain ⟨k0, v0⟩ := kv
      by_cases hk : k0 = k
      · simp only [lookupDict, if_pos hk] at h ⊢
        exact h
      · simp only [lookupDict, if_neg hk] at h ⊢
        exact ih h

theorem lookupDict_append_none (es l : List (String × RTree)) (k : String)
    (h : lookupDict es k = none) :
    lookupDict (es ++ l) k = lookupDict l k := by
  induction es with
  | nil => rfl
  | cons kv rest ih =>
      obtain ⟨k0, v0⟩ := kv
      by_cases hk : k0 = k
      · simp [lookupDict, if_pos hk] at h
      · simp only [lookupDict, if_neg hk] at h
        rw [List.cons_append]
        simp only [lookupDict, if_neg hk]
        exact ih h

theorem lookupDict_assocSet (es : List (String × RTree)) (k : String)
    (v : RTree) (k' : String) :
    lookupDict (assocSet es k v) k' =
      if k = k' then some v else lookupDict es k' := by
  induction es with
  | nil =>
      by_cases hk : k = k' <;> simp [assocSet, lookupDict, hk]
  | cons kv rest ih =>
      obtain ⟨k0, v0⟩ := kv
      by_cases hk0 : k0 = k
      · subst hk0
        by_cases hk : k0 = k'
        · simp [assocSet, lookupDict, hk]
        · simp [assocSet, lookupDict, hk]
      · by_cases hk : k0 = k'
        · subst hk
          have hkk : ¬ k = k0 := fun hc => hk0 hc.symm
          simp [assocSet, lookupDict, hk0, hkk]
        · simp [assocSet, lookupDict, hk0, hk, ih]

theorem assocSet_absent (es : List (String × RTree)) (k : String) (v : RTree)
    (h : lookupDict es k = none) : assocSet es k v = es ++ [(k, v)] := by
  induction es with
  | nil => rfl
  | cons kv rest ih =>
      obtain ⟨k0, v0⟩ := kv
      by_cases hk : k0 = k
      · simp [lookupDict, if_pos hk] at h
      · simp only [lookupDict, if_neg hk] at h
        simp [assocSet, if_neg hk, ih h]

theorem lookupDict_mem (es : List (String × RTree)) (k : String) (v : RTree)
    (h : lookupDict es k = some v) : (k, v) ∈ es := by
  induction es with
  | nil => simp [lookupDict] at h
  | cons kv rest ih =>
      obtain ⟨k0, v0⟩ := kv
      by_cases hk : k0 = k
      · subst hk
        have hv : v0 = v := by simpa [lookupDict] using h
        subst hv
        exact List.mem_cons_self _ _
      · simp only [lookupDict, if_neg hk] at h
        exact List.mem_cons_of_mem _ (ih h)

theorem mem_keys_iff (es : List (String × RTree)) (k : String) :
    k ∈ es.map Prod.fst ↔ ∃ v, lookupDict es k = some v := by
  induction es with
  | nil => simp [lookupDict]
  | cons kv rest ih =>
      obtain ⟨k0, v0⟩ := kv
      by_cases hk : k0 = k
      · subst hk
        simp [lookupDict]
      · simp only [List.map_cons, List.mem_cons, lookupDict, if_neg hk]
        constructor
        · rintro (h | h)
          · exact absurd h.symm hk
          · exact ih.mp h
        · intro h
          exact Or.inr (ih.mpr h)

theorem WFE_lookup (es : List (String × RTree)) (k : String) (v : RTree)
    (hwf : WFE es) (h : lookupDict es k = some v) : WFT v := by
  induction es with
  | nil => simp [lookupDict] at h
  | cons kv rest ih =>
      obtain ⟨k0, v0⟩ := kv
      obtain ⟨hv0, _, hrest⟩ := hwf
      by_cases hk : k0 = k
      · simp only [lookupDict, if_pos hk, Option.some.injEq] at h
        exact h ▸ hv0
      · simp only [lookupDict, if_neg hk] at h
        exact ih hrest h

theorem WFE_keys_nodup (es : List (String × RTree)) (hwf : WFE es) :
    (es.map Prod.fst).Nodup := by
  induction es with
  | nil => simp
  | cons kv rest ih =>
      obtain ⟨k0, v0⟩ := kv
      obtain ⟨_, hnone, hrest⟩ := hwf
      simp only [List.map_cons, List.nodup_cons]
      refine ⟨?_, ih hrest⟩
      intro hmem
      obtain ⟨v, hv⟩ := (mem_keys_iff rest k0).mp hmem
      rw [hnone] at hv
      cases hv

theorem WFE_append_one (es : List (String × RTree)) (k : String) (v : RTree)
    (hwf : WFE es) (h : lookupDict es k = none) (hv : WFT v) :
    WFE (es ++ [(k, v)]) := by
  induction es with
  | nil => exact ⟨hv, rfl, trivial⟩
  | cons kv rest ih =>
      obtain ⟨k0, v0⟩ := kv
      obtain ⟨hv0, hn0, hrest⟩ := hwf
      by_cases hk : k0 = k
      · simp [lookupDict, if_pos hk] at h
      · simp only [lookupDict, if_neg hk] at h
        refine ⟨hv0, ?_, ih hrest h⟩
        show lookupDict (rest ++ [(k, v)]) k0 = none
        rw [lookupDict_append_none rest _ _ hn0]
        have : ¬ k = k0 := fun hc => hk hc.symm
        simp [lookupDict, this]

theorem WFE_assocSet (es : List (String × RTree)) (k : String) (v : RTree)
    (hwf : WFE es) (hv : WFT v) : WFE (assocSet es k v) := by
  induction es with
  | nil => exact ⟨hv, rfl, trivial⟩
  | cons kv rest ih =>
      obtain ⟨k0, v0⟩ := kv
      obtain ⟨hv0, hn0, hrest⟩ := hwf
      by_cases hk : k0 = k
      · subst hk
        rw [show assocSet ((k0, v0) :: rest) k0 v = (k0, v) :: rest from
          by simp [assocSet]]
        exact ⟨hv, hn0, hrest⟩
      · rw [show assocSet ((k0, v0) :: rest) k v = (k0, v0) :: assocSet rest k v
          from by simp [assocSet, hk]]
        refine ⟨hv0, ?_, ih hrest⟩
        rw [lookupDict_assocSet]
        have : ¬ k = k0 := fun hc => hk hc.symm
        simp [this, hn0]

theorem exists_leafT :
    ∀ n (t : RTree), sizeOf t ≤ n → WFT t → ∃ q r, leafFunT t q = some r := by
  intro n
  induction n using Nat.strong_induction_on with
  | _ n ih =>
      intro t ht hwf
      cases t with
      | leaf r => exact ⟨[], r, rfl⟩
      | node es =>
          obtain ⟨hne, hwfe⟩ := hwf
          cases es with
          | nil => exact absurd rfl hne
          | cons kv rest =>
              obtain ⟨k, v⟩ := kv
              obtain ⟨hv, _, _⟩ := hwfe
              have hsz : sizeOf v < n := by
                simp only [RTree.node.sizeOf_spec, List.cons.sizeOf_spec,
                  Prod.mk.sizeOf_spec] at ht
                omega
              obtain ⟨q, r, hq⟩ := ih (sizeOf v) hsz v le_rfl hv
              exact ⟨k :: q, r, by simp [leafFunT, leafFunE, hq]⟩

end PodspecGen
namespace PodspecGen

/-! ## C5: insertion characterization for collision-free keys -/

theorem dictFun_empty (q : List String) :
    dictFun ([] : List (String × RTree)) q = none := by
  cases q <;> rfl

theorem not_incomp_self (k : List String) : ¬ Incomp k k :=
  fun h => h.1 (List.prefix_refl k)

theorem incomp_cons (a : String) (x y : List String)
    (h : Incomp (a :: x) (a :: y)) : Incomp x y :=
  ⟨fun hp => h.1 (by obtain ⟨t, ht⟩ := hp; exact ⟨t, by rw [List.cons_append, ht]⟩),
   fun hp => h.2 (by obtain ⟨t, ht⟩ := hp; exact ⟨t, by rw [List.cons_append, ht]⟩)⟩

/-- Inserting a rule whose full key path is incomparable with every key
path already stored succeeds, preserves well-formedness, and updates the
described partial map exactly at the new key path. -/
theorem insertPath_char :
    ∀ (frags : List String) (es : List (String × RTree)) (name : String)
      (r : Rule),
      WFE es →
      (∀ q r0, dictFun es q = some r0 → Incomp q (frags ++ [name])) →
      ∃ es', insertPath es frags name r = .ok es' ∧ WFE es' ∧
        ∀ q, dictFun es' q =
          if q = frags ++ [name] then some r else dictFun es q := by
  intro frags
  induction frags with
  | nil =>
      intro es name r hwf hdis
      have hnone : lookupDict es name = none := by
        cases hl : lookupDict es name with
        | none => rfl
        | some v =>
            exfalso
            cases v with
            | leaf r0 =>
                have hd : dictFun es [name] = some r0 := by
                  rw [dictFun_cons, hl]; rfl
                exact not_incomp_self _ (hdis [name] r0 hd)
            | node sub =>
                have hwt : WFT (.node sub) := WFE_lookup es name _ hwf hl
                obtain ⟨q0, r0, hq0⟩ :=
                  exists_leafT (sizeOf (RTree.node sub)) _ le_rfl hwt
                have hd : dictFun es (name :: q0) = some r0 := by
                  rw [dictFun_cons, hl]; exact hq0
                exact (hdis (name :: q0) r0 hd).2 ⟨q0, rfl⟩
      refine ⟨es ++ [(name, .leaf r)], ?_, ?_, ?_⟩
      · show insertPath es [] name r = _
        simp [insertPath, assocSet_absent es name _ hnone]
      · exact WFE_append_one es name _ hwf hnone trivial
      · intro q
        cases q with
        | nil => rw [if_neg (by simp)]; rfl
        | cons k q' =>
            by_cases hk : k = name
            · subst hk
              rw [dictFun_cons, lookupDict_append_none es _ _ hnone]
              have hsing : lookupDict [(k, RTree.leaf r)] k =
                  some (RTree.leaf r) := by simp [lookupDict]
              rw [hsing]
              cases q' with
              | nil => rw [if_pos (by simp)]; rfl
              | cons c q'' =>
                  rw [if_neg (by simp), dictFun_cons, hnone]
                  rfl
            · have hne : ¬ (k :: q' = [] ++ [name]) := by
                intro hc
                injection hc with h1 _
                exact hk h1
              rw [if_neg hne, dictFun_cons, dictFun_cons]
              cases hle : lookupDict es k with
              | none =>
                  rw [lookupDict_append_none es _ _ hle]
                  have hs : lookupDict [(name, RTree.leaf r)] k = none := by
                    have : ¬ name = k := fun h => hk h.symm
                    simp [lookupDict, this]
                  rw [hs]
              | some v => rw [lookupDict_append_some es _ _ _ hle]
  | cons f rest ih =>
      intro es name r hwf hdis
      cases hl : lookupDict es f with
      | some v =>
          cases v with
          | leaf r0 =>
              exfalso
              have hd : dictFun es [f] = some r0 := by
                rw [dictFun_cons, hl]; rfl
              exact (hdis [f] r0 hd).1 ⟨rest ++ [name], rfl⟩
          | node sub =>
              have hwt : WFT (.node sub) := WFE_lookup es f _ hwf hl
              obtain ⟨hne, hwfsub⟩ := hwt
              have hdis' : ∀ q r0, dictFun sub q = some r0 →
                  Incomp q (rest ++ [name]) := by
                intro q r0 hq
                cases q with
                | nil => simp [dictFun] at hq
                | cons c q'' =>
                    have hd : dictFun es (f :: c :: q'') = some r0 := by
                      rw [dictFun_cons, hl]; exact hq
                    exact incomp_cons f _ _ (hdis _ r0 hd)
              obtain ⟨sub2, hins, hwf2, hdf2⟩ := ih sub name r hwfsub hdis'
              refine ⟨assocSet es f (.node sub2), ?_, ?_, ?_⟩
              · simp [insertPath, hl, hins, Except.map]
              · apply WFE_assocSet es f _ hwf
                refine ⟨?_, hwf2⟩
                intro hc
                have hx := hdf2 (rest ++ [name])
                rw [if_pos rfl, hc, dictFun_empty] at hx
                cases hx
              · intro q
                cases q with
                | nil => rw [if_neg (by simp)]; rfl
                | cons k q' =>
                    rw [dictFun_cons, dictFun_cons, lookupDict_assocSet]
                    by_cases hk : f = k
                    · subst hk
                      rw [if_pos rfl, hl]
                      cases q' with
                      | nil => rw [if_neg (by simp)]; rfl
                      | cons c q'' =>
                          show leafFunE sub2 c q'' = _
                          have hx := hdf2 (c :: q'')
                          rw [show dictFun sub2 (c :: q'') =
                            leafFunE sub2 c q'' from rfl] at hx
                          rw [hx]
                          by_cases hq : c :: q'' = rest ++ [name]
                          · rw [if_pos hq, if_pos (by simp [hq])]
                          · rw [if_neg hq,
                              if_neg (by simp [List.cons_append, hq])]
                            rfl
                    · rw [if_neg hk]
                      have hnk : ¬ (k :: q' = (f :: rest) ++ [name]) := by
                        intro hc
                        rw [List.cons_append] at hc
                        injection hc with h1 _
                        exact hk h1.symm
                      rw [if_neg hnk]
      | none =>
          have hdisnil : ∀ q r0,
              dictFun ([] : List (String × RTree)) q = some r0 →
              Incomp q (rest ++ [name]) := by
            intro q r0 hq
            rw [dictFun_empty] at hq
            cases hq
          obtain ⟨sub, hins, hwfsub, hdfsub⟩ := ih [] name r trivial hdisnil
          refine ⟨es ++ [(f, .node sub)], ?_, ?_, ?_⟩
          · simp [insertPath, hl, hins, Except.map]
          · apply WFE_append_one es f _ hwf hl
            refine ⟨?_, hwfsub⟩
            intro hc
            have hx := hdfsub (rest ++ [name])
            rw [if_pos rfl, hc, dictFun_empty] at hx
            cases hx
          · intro q
            cases q with
            | nil => rw [if_neg (by simp)]; rfl
            | cons k q' =>
                rw [dictFun_cons, dictFun_cons]
                by_cases hk : f = k
                · subst hk
                  rw [lookupDict_append_none es _ _ hl, hl]
                  have hsing : lookupDict [(f, RTree.node sub)] f =
                      some (.node sub) := by simp [lookupDict]
                  rw [hsing]
                  cases q' with
                  | nil => rw [if_neg (by simp)]; rfl
                  | cons c q'' =>
                      show leafFunE sub c q'' = _
                      have hx := hdfsub (c :: q'')
                      rw [show dictFun sub (c :: q'') =
                        leafFunE sub c q'' from rfl, dictFun_empty] at hx
                      rw [hx]
                      by_cases hq : c :: q'' = rest ++ [name]
                      · rw [if_pos hq, if_pos (by simp [hq])]
                      · rw [if_neg hq,
                          if_neg (by simp [List.cons_append, hq])]
                        rfl
                · have hnk : ¬ (k :: q' = (f :: rest) ++ [name]) := by
                    intro hc
                    rw [List.cons_append] at hc
                    injection hc with h1 _
                    exact hk h1.symm
                  rw [if_neg hnk]
                  cases hle : lookupDict es k with
                  | none =>
                      rw [lookupDict_append_none es _ _ hle]
                      have hs : lookupDict [(f, RTree.node sub)] k = none := by
                        simp [lookupDict, hk]
                      rw [hs]
                  | some v => rw [lookupDict_append_some es _ _ _ hle]

end PodspecGen
namespace PodspecGen

/-! ## C5: characterizing the built directory of a collision-free set -/

theorem get_spec_name_of_prefix (r : Rule)
    (h : startsWithAbsl r.package = true) :
    get_spec_name r.package = .ok (specNameStr r) := by
  simp [get_spec_name, specNameStr, h]

theorem build_fold_char :
    ∀ (l : List Rule) (es : List (String × RTree)),
      WFE es →
      (∀ q r0, dictFun es q = some r0 → ∀ r' ∈ l, Incomp q (keyList r')) →
      (∀ r' ∈ l, startsWithAbsl r'.package = true) →
      l.Pairwise (fun r1 r2 => Incomp (keyList r1) (keyList r2)) →
      ∃ dF,
        List.foldlM
          (fun dir r => do
            let sn ← get_spec_name r.package
            insertPath dir (pySplit '/' sn) r.name r)
          es l = .ok dF ∧ WFE dF ∧
        (∀ q r0, findByKey l q = some r0 → dictFun dF q = some r0) ∧
        (∀ q, findByKey l q = none → dictFun dF q = dictFun es q) := by
  intro l
  induction l with
  | nil =>
      intro es hwf _ _ _
      refine ⟨es, by simp [pure, Except.pure], hwf, ?_, ?_⟩
      · intro q r0 h
        simp [findByKey] at h
      · intro q _
        rfl
  | cons r l' ih =>
      intro es hwf hdis hpre hpw
      have hr : startsWithAbsl r.package = true :=
        hpre r (List.mem_cons_self _ _)
      have hsn : get_spec_name r.package = .ok (specNameStr r) :=
        get_spec_name_of_prefix r hr
      have hdis1 : ∀ q r0, dictFun es q = some r0 →
          Incomp q (pySplit '/' (specNameStr r) ++ [r.name]) :=
        fun q r0 h => hdis q r0 h r (List.mem_cons_self _ _)
      obtain ⟨d1, hd1, hwf1, hdf1⟩ :=
        insertPath_char (pySplit '/' (specNameStr r)) es r.name r hwf hdis1
      have hpwh := List.pairwise_cons.mp hpw
      have hdis2 : ∀ q r0, dictFun d1 q = some r0 →
          ∀ r' ∈ l', Incomp q (keyList r') := by
        intro q r0 hq r' hr'
        rw [hdf1 q] at hq
        by_cases hcase : q = pySplit '/' (specNameStr r) ++ [r.name]
        · rw [hcase]
          exact hpwh.1 r' hr'
        · rw [if_neg hcase] at hq
          exact hdis q r0 hq r' (List.mem_cons_of_mem _ hr')
      obtain ⟨dF, hdF, hwfF, hfind, hnone⟩ := ih d1 hwf1 hdis2
        (fun r' h => hpre r' (List.mem_cons_of_mem _ h)) hpwh.2
      refine ⟨dF, ?_, hwfF, ?_, ?_⟩
      · simp only [List.foldlM_cons]
        rw [hsn, except_ok_bind, hd1, except_ok_bind]
        exact hdF
      · intro q r0 hfq
        by_cases hkq : keyList r = q
        · have hhead : findByKey (r :: l') q = some r := by
            unfold findByKey
            rw [List.find?_cons_of_pos _ (by simp [hkq])]
          rw [hhead] at hfq
          obtain rfl : r = r0 := by injection hfq
          have hfl' : findByKey l' q = none := by
            refine List.find?_eq_none.mpr ?_
            intro r' hr' hbeq
            have hk' : keyList r' = q := by simpa using hbeq
            have hinc := hpwh.1 r' hr'
            rw [hkq, hk'] at hinc
            exact not_incomp_self q hinc
          rw [hnone q hfl', hdf1]
          rw [if_pos (show q = pySplit '/' (specNameStr r) ++ [r.name] from
            hkq.symm)]
        · have hstep : findByKey (r :: l') q = findByKey l' q := by
            unfold findByKey
            rw [List.find?_cons_of_neg _ (by simp [hkq])]
          rw [hstep] at hfq
          exact hfind q r0 hfq
      · intro q hfq
        have hkq : ¬ keyList r = q := by
          intro hc
          unfold findByKey at hfq
          rw [List.find?_cons_of_pos _ (by simp [hc])] at hfq
          cases hfq
        have hstep : findByKey (r :: l') q = findByKey l' q := by
          unfold findByKey
          rw [List.find?_cons_of_neg _ (by simp [hkq])]
        rw [hstep] at hfq
        rw [hnone q hfq, hdf1]
        rw [if_neg (show ¬ q = pySplit '/' (specNameStr r) ++ [r.name] from
          fun hc => hkq hc.symm)]

end PodspecGen

namespace PodspecGen

/-! ## C5: rendering depends only on the described partial map -/

theorem lookup_rel (es1 es2 : List (String × RTree)) (w1 : WFE es1)
    (w2 : WFE es2) (h : ∀ q, dictFun es1 q = dictFun es2 q) (k : String) :
    (lookupDict es1 k = none ∧ lookupDict es2 k = none) ∨
    (∃ r, lookupDict es1 k = some (.leaf r) ∧
      lookupDict es2 k = some (.leaf r)) ∨
    (∃ sub1 sub2, lookupDict es1 k = some (.node sub1) ∧
      lookupDict es2 k = some (.node sub2) ∧
      (∀ q, dictFun sub1 q = dictFun sub2 q)) := by
  cases hl1 : lookupDict es1 k with
  | none =>
      cases hl2 : lookupDict es2 k with
      | none => exact Or.inl ⟨rfl, rfl⟩
      | some v =>
          exfalso
          have hwt := WFE_lookup es2 k v w2 hl2
          obtain ⟨q0, r0, hq0⟩ := exists_leafT (sizeOf v) v le_rfl hwt
          have h2 : dictFun es2 (k :: q0) = some r0 := by
            rw [dictFun_cons, hl2]
            exact hq0
          have h1 : dictFun es1 (k :: q0) = none := by
            rw [dictFun_cons, hl1]
            rfl
          rw [h (k :: q0), h2] at h1
          cases h1
  | some v1 =>
      cases hl2 : lookupDict es2 k with
      | none =>
          exfalso
          have hwt := WFE_lookup es1 k v1 w1 hl1
          obtain ⟨q0, r0, hq0⟩ := exists_leafT (sizeOf v1) v1 le_rfl hwt
          have h1 : dictFun es1 (k :: q0) = some r0 := by
            rw [dictFun_cons, hl1]
            exact hq0
          have h2 : dictFun es2 (k :: q0) = none := by
            rw [dictFun_cons, hl2]
            rfl
          rw [h (k :: q0), h2] at h1
          cases h1
      | some v2 =>
          cases v1 with
          | leaf r1 =>
              cases v2 with
              | leaf r2 =>
                  have h1 : dictFun es1 [k] = some r1 := by
                    rw [dictFun_cons, hl1]
                    rfl
                  have h2 : dictFun es2 [k] = some r2 := by
                    rw [dictFun_cons, hl2]
                    rfl
                  rw [h [k], h2] at h1
                  obtain rfl := Option.some.inj h1
                  exact Or.inr (Or.inl ⟨r2, rfl, rfl⟩)
              | node sub2 =>
                  exfalso
                  have h1 : dictFun es1 [k] = some r1 := by
                    rw [dictFun_cons, hl1]
                    rfl
                  have h2 : dictFun es2 [k] = none := by
                    rw [dictFun_cons, hl2]
                    rfl
                  rw [h [k], h2] at h1
                  cases h1
          | node sub1 =>
              cases v2 with
              | leaf r2 =>
                  exfalso
                  have h2 : dictFun es2 [k] = some r2 := by
                    rw [dictFun_cons, hl2]
                    rfl
                  have h1 : dictFun es1 [k] = none := by
                    rw [dictFun_cons, hl1]
                    rfl
                  rw [← h [k], h1] at h2
                  cases h2
              | node sub2 =>
                  refine Or.inr (Or.inr ⟨sub1, sub2, rfl, rfl, ?_⟩)
                  intro q
                  cases q with
                  | nil => rfl
                  | cons c q2 =>
                      have h1 : dictFun es1 (k :: c :: q2) =
                          dictFun sub1 (c :: q2) := by
                        rw [dictFun_cons, hl1]
                        rfl
                      have h2 : dictFun es2 (k :: c :: q2) =
                          dictFun sub2 (c :: q2) := by
                        rw [dictFun_cons, hl2]
                        rfl
                      rw [← h1, ← h2, h]

theorem write_entries_cons (k : String) (v : RTree)
    (rest : List (String × RTree)) (depth : Nat) :
    write_entries ((k, v) :: rest) depth =
      wseq (wemit (subspecLine k depth))
        (wseq (writeValue v (depth + 1))
          (wseq (wemit (endLine depth)) (write_entries rest depth))) := by
  cases v with
  | leaf r =>
      rw [write_entries.eq_def]
      rfl
  | node sub =>
      rw [write_entries.eq_def]
      rfl

theorem write_entries_congr (depth : Nat) :
    ∀ (l1 l2 : List (String × RTree)),
      List.Forall₂ (fun a b => a.1 = b.1 ∧
        writeValue a.2 (depth + 1) = writeValue b.2 (depth + 1)) l1 l2 →
      write_entries l1 depth = write_entries l2 depth := by
  intro l1 l2 hf
  induction hf with
  | nil => rfl
  | @cons a b t1 t2 hab htail ih =>
      obtain ⟨k1, v1⟩ := a
      obtain ⟨k2, v2⟩ := b
      obtain ⟨hk, hv⟩ := hab
      obtain rfl : k1 = k2 := hk
      rw [write_entries_cons, write_entries_cons, hv, ih]

theorem lookup_eq_of_perm :
    ∀ (l1 l2 : List (String × RTree)), l1.Perm l2 →
      (l1.map Prod.fst).Nodup → ∀ k, lookupDict l1 k = lookupDict l2 k := by
  intro l1 l2 hperm
  induction hperm with
  | nil =>
      intro _ k
      rfl
  | @cons x t1 t2 hp ih =>
      intro hnd k
      obtain ⟨kx, vx⟩ := x
      simp only [List.map_cons, List.nodup_cons] at hnd
      by_cases hk : kx = k
      · simp [lookupDict, hk]
      · simp only [lookupDict, if_neg hk]
        exact ih hnd.2 k
  | swap x y t =>
      intro hnd k
      obtain ⟨kx, vx⟩ := x
      obtain ⟨ky, vy⟩ := y
      simp only [List.map_cons, List.nodup_cons, List.mem_cons] at hnd
      have hxy : ¬ ky = kx := fun hc => hnd.1 (Or.inl hc)
      by_cases h1 : ky = k
      · subst h1
        have hxk : ¬ kx = ky := fun hc => hxy hc.symm
        simp [lookupDict, hxk]
      · by_cases h2 : kx = k
        · subst h2
          simp [lookupDict, hxy]
        · simp [lookupDict, h1, h2]
  | trans hp1 hp2 ih1 ih2 =>
      intro hnd k
      rw [ih1 hnd k]
      exact ih2 (((hp1.map Prod.fst).nodup_iff).mp hnd) k

theorem sortEntries_perm (es : List (String × RTree)) :
    (sortEntries es).Perm es :=
  List.perm_insertionSort _ es

theorem sortEntries_map_fst_sorted (es : List (String × RTree)) :
    ((sortEntries es).map Prod.fst).Sorted (fun a b : String => a ≤ b) := by
  haveI : IsTotal (String × RTree) (fun a b : String × RTree => a.1 ≤ b.1) :=
    ⟨fun a b => le_total a.1 b.1⟩
  haveI : IsTrans (String × RTree) (fun a b : String × RTree => a.1 ≤ b.1) :=
    ⟨fun _ _ _ ha hb => le_trans ha hb⟩
  have hs := List.sorted_insertionSort
    (fun a b : String × RTree => a.1 ≤ b.1) es
  exact hs.map _ (fun _ _ hx => hx)

theorem sortStrings_sorted (l : List String) :
    (sortStrings l).Sorted (fun a b : String => a ≤ b) := by
  haveI : IsTotal String (fun a b : String => a ≤ b) :=
    ⟨fun a b => le_total a b⟩
  haveI : IsTrans String (fun a b : String => a ≤ b) :=
    ⟨fun _ _ _ ha hb => le_trans ha hb⟩
  exact List.sorted_insertionSort (fun a b : String => a ≤ b) l

theorem forall2_writeValue (depth : Nat) :
    ∀ (l1 l2 : List (String × RTree)),
      l1.map Prod.fst = l2.map Prod.fst →
      (l1.map Prod.fst).Nodup →
      (∀ k v1 v2, lookupDict l1 k = some v1 → lookupDict l2 k = some v2 →
        writeValue v1 (depth + 1) = writeValue v2 (depth + 1)) →
      List.Forall₂ (fun a b => a.1 = b.1 ∧
        writeValue a.2 (depth + 1) = writeValue b.2 (depth + 1)) l1 l2 := by
  intro l1
  induction l1 with
  | nil =>
      intro l2 hmap _ _
      cases l2 with
      | nil => exact List.Forall₂.nil
      | cons b t => simp at hmap
  | cons a t1 ih =>
      intro l2 hmap hnd hP
      obtain ⟨k1, v1⟩ := a
      cases l2 with
      | nil => simp at hmap
      | cons b t2 =>
          obtain ⟨k2, v2⟩ := b
          simp only [List.map_cons, List.cons.injEq] at hmap
          obtain ⟨hk, hmap2⟩ := hmap
          subst hk
          simp only [List.map_cons, List.nodup_cons] at hnd
          refine List.Forall₂.cons ⟨rfl, ?_⟩ ?_
          · exact hP k1 v1 v2 (by simp [lookupDict]) (by simp [lookupDict])
          · refine ih t2 hmap2 hnd.2 ?_
            intro k w1 w2 hw1 hw2
            by_cases hkk : k1 = k
            · exfalso
              subst hkk
              exact hnd.1 ((mem_keys_iff t1 k1).mpr ⟨w1, hw1⟩)
            · refine hP k w1 w2 ?_ ?_
              · simp only [lookupDict, if_neg hkk]
                exact hw1
              · simp only [lookupDict, if_neg hkk]
                exact hw2

end PodspecGen

namespace PodspecGen

/-- Two well-formed dictionaries describing the same partial map render
to the same text: the emitted keys are the (equal) sorted key sets, and
each value renders equally by induction on the tree size. -/
theorem render_ext :
    ∀ n (es1 es2 : List (String × RTree)),
      sizeOf es1 + sizeOf es2 ≤ n → WFE es1 → WFE es2 →
      (∀ q, dictFun es1 q = dictFun es2 q) →
      ∀ depth, write_podspec_map es1 depth = write_podspec_map es2 depth := by
  intro n
  induction n using Nat.strong_induction_on with
  | _ n ih =>
      intro es1 es2 hn w1 w2 hdf depth
      have hnd1 : (es1.map Prod.fst).Nodup := WFE_keys_nodup es1 w1
      have hnd2 : (es2.map Prod.fst).Nodup := WFE_keys_nodup es2 w2
      have hperm1 : ((sortEntries es1).map Prod.fst).Perm (es1.map Prod.fst) :=
        (sortEntries_perm es1).map Prod.fst
      have hperm2 : ((sortEntries es2).map Prod.fst).Perm (es2.map Prod.fst) :=
        (sortEntries_perm es2).map Prod.fst
      have hnds1 : ((sortEntries es1).map Prod.fst).Nodup :=
        hperm1.nodup_iff.mpr hnd1
      have hnds2 : ((sortEntries es2).map Prod.fst).Nodup :=
        hperm2.nodup_iff.mpr hnd2
      have hmem : ∀ a, a ∈ es1.map Prod.fst ↔ a ∈ es2.map Prod.fst := by
        intro a
        rw [mem_keys_iff, mem_keys_iff]
        rcases lookup_rel es1 es2 w1 w2 hdf a with ⟨ha, hb⟩ | ⟨r, ha, hb⟩ |
          ⟨s1, s2, ha, hb, hs⟩
        · simp [ha, hb]
        · simp [ha, hb]
        · simp [ha, hb]
      have hkeys : (sortEntries es1).map Prod.fst =
          (sortEntries es2).map Prod.fst := by
        haveI : IsAntisymm String (fun a b : String => a ≤ b) :=
          ⟨fun _ _ ha hb => le_antisymm ha hb⟩
        refine List.eq_of_perm_of_sorted ?_ (sortEntries_map_fst_sorted es1)
          (sortEntries_map_fst_sorted es2)
        rw [List.perm_ext_iff_of_nodup hnds1 hnds2]
        intro a
        rw [hperm1.mem_iff, hperm2.mem_iff]
        exact hmem a
      have hl1 : ∀ k, lookupDict (sortEntries es1) k = lookupDict es1 k :=
        fun k => lookup_eq_of_perm _ _ (sortEntries_perm es1) hnds1 k
      have hl2 : ∀ k, lookupDict (sortEntries es2) k = lookupDict es2 k :=
        fun k => lookup_eq_of_perm _ _ (sortEntries_perm es2) hnds2 k
      have h1 : write_podspec_map es1 depth =
          write_entries (sortEntries es1) depth := by
        rw [write_podspec_map.eq_def]
      have h2 : write_podspec_map es2 depth =
          write_entries (sortEntries es2) depth := by
        rw [write_podspec_map.eq_def]
      rw [h1, h2]
      apply write_entries_congr
      refine forall2_writeValue depth _ _ hkeys hnds1 ?_
      intro k u1 u2 hu1 hu2
      rw [hl1 k] at hu1
      rw [hl2 k] at hu2
      rcases lookup_rel es1 es2 w1 w2 hdf k with ⟨ha, hb⟩ | ⟨r, ha, hb⟩ |
        ⟨s1, s2, ha, hb, hsub⟩
      · rw [ha] at hu1
        cases hu1
      · rw [ha] at hu1
        rw [hb] at hu2
        obtain rfl := Option.some.inj hu1
        obtain rfl := Option.some.inj hu2
        rfl
      · rw [ha] at hu1
        rw [hb] at hu2
        obtain rfl := Option.some.inj hu1
        obtain rfl := Option.some.inj hu2
        show write_podspec_map s1 (depth + 1) = write_podspec_map s2 (depth + 1)
        have hm1 : sizeOf s1 < sizeOf es1 := by
          have h0 := List.sizeOf_lt_of_mem (lookupDict_mem es1 k _ ha)
          simp only [Prod.mk.sizeOf_spec, RTree.node.sizeOf_spec] at h0
          omega
        have hm2 : sizeOf s2 < sizeOf es2 := by
          have h0 := List.sizeOf_lt_of_mem (lookupDict_mem es2 k _ hb)
          simp only [Prod.mk.sizeOf_spec, RTree.node.sizeOf_spec] at h0
          omega
        have hw1 : WFE s1 := (WFE_lookup es1 k _ w1 ha).2
        have hw2 : WFE s2 := (WFE_lookup es2 k _ w2 hb).2
        exact ih (sizeOf s1 + sizeOf s2) (by omega) s1 s2 le_rfl hw1 hw2 hsub
          (depth + 1)

theorem incomp_symm (k1 k2 : List String) (h : Incomp k1 k2) : Incomp k2 k1 :=
  ⟨h.2, h.1⟩

/-- `rule_dir` lookups (first match) are invariant under permutation of
a collision-free rule list. -/
theorem findByKey_perm :
    ∀ (l1 l2 : List Rule), l1.Perm l2 →
      l1.Pairwise (fun r1 r2 => Incomp (keyList r1) (keyList r2)) →
      ∀ q, findByKey l1 q = findByKey l2 q := by
  intro l1 l2 hperm
  induction hperm with
  | nil =>
      intro _ q
      rfl
  | @cons x t1 t2 hp ih =>
      intro hpw q
      have hpwc := List.pairwise_cons.mp hpw
      by_cases hx : keyList x = q
      · have hL : findByKey (x :: t1) q = some x := by
          unfold findByKey
          rw [List.find?_cons_of_pos _ (by simp [hx])]
        have hR : findByKey (x :: t2) q = some x := by
          unfold findByKey
          rw [List.find?_cons_of_pos _ (by simp [hx])]
        rw [hL, hR]
      · have hL : findByKey (x :: t1) q = findByKey t1 q := by
          unfold findByKey
          rw [List.find?_cons_of_neg _ (by simp [hx])]
        have hR : findByKey (x :: t2) q = findByKey t2 q := by
          unfold findByKey
          rw [List.find?_cons_of_neg _ (by simp [hx])]
        rw [hL, hR]
        exact ih hpwc.2 q
  | swap x y t =>
      intro hpw q
      have hpwc := List.pairwise_cons.mp hpw
      have hxy : Incomp (keyList y) (keyList x) :=
        hpwc.1 x (List.mem_cons_self _ _)
      by_cases hy : keyList y = q
      · have hx : ¬ keyList x = q := by
          intro hc
          rw [hy, hc] at hxy
          exact not_incomp_self q hxy
        have hL : findByKey (y :: x :: t) q = some y := by
          unfold findByKey
          rw [List.find?_cons_of_pos _ (by simp [hy])]
        have hR : findByKey (x :: y :: t) q = some y := by
          unfold findByKey
          rw [List.find?_cons_of_neg _ (by simp [hx]),
            List.find?_cons_of_pos _ (by simp [hy])]
        rw [hL, hR]
      · by_cases hx : keyList x = q
        · have hL : findByKey (y :: x :: t) q = some x := by
            unfold findByKey
            rw [List.find?_cons_of_neg _ (by simp [hy]),
              List.find?_cons_of_pos _ (by simp [hx])]
          have hR : findByKey (x :: y :: t) q = some x := by
            unfold findByKey
            rw [List.find?_cons_of_pos _ (by simp [hx])]
          rw [hL, hR]
        · have hL : findByKey (y :: x :: t) q = findByKey t q := by
            unfold findByKey
            rw [List.find?_cons_of_neg _ (by simp [hy]),
              List.find?_cons_of_neg _ (by simp [hx])]
          have hR : findByKey (x :: y :: t) q = findByKey t q := by
            unfold findByKey
            rw [List.find?_cons_of_neg _ (by simp [hx]),
              List.find?_cons_of_neg _ (by simp [hy])]
          rw [hL, hR]
  | trans hp1 hp2 ih1 ih2 =>
      intro hpw q
      rw [ih1 hpw q]
      refine ih2 ?_ q
      exact (hp1.pairwise_iff (fun h => incomp_symm _ _ h)).mp hpw

theorem goodRules_perm (l1 l2 : List Rule) (hp : l1.Perm l2)
    (hg : GoodRules l1) : GoodRules l2 := by
  obtain ⟨h1, h2⟩ := hg
  refine ⟨fun r hr => h1 r (hp.mem_iff.mpr hr), ?_⟩
  exact (hp.pairwise_iff (fun h => incomp_symm _ _ h)).mp h2

/-- On a collision-free rule list, `build_rule_directory` succeeds and
builds a well-formed dictionary whose partial map is exactly first-match
lookup by full key path. -/
theorem build_dictFun (l : List Rule) (hg : GoodRules l) :
    ∃ dF, build_rule_directory l = .ok dF ∧ WFE dF ∧
      ∀ q, dictFun dF q = findByKey l q := by
  obtain ⟨dF, hok, hwf, hfind, hnone⟩ := build_fold_char l [] trivial
    (fun q r0 h => by rw [dictFun_empty] at h; cases h) hg.1 hg.2
  refine ⟨dF, hok, hwf, ?_⟩
  intro q
  cases hf : findByKey l q with
  | none => rw [hnone q hf, dictFun_empty]
  | some r => exact hfind q r hf

end PodspecGen

namespace PodspecGen

/-- C5 (amended): on collision-free rule sets (every package passes the
`//absl/` prefix assertion and distinct rules have incomparable full key
paths) the rendered manifest is a function of the rule *set* alone:
permuting the input rule list leaves the output byte-identical.  The
emission order is lexicographic: the keys iterated at every tree level
are sorted, as are the header/source lists and dependency labels
(`sortEntries`/`sortStrings` are exactly the `sorted(...)` calls of
`write_podspec_map` and `write_podspec_rule`).  Without the
collision-free hypothesis the property fails
(`write_podspec_not_order_invariant`). -/
theorem write_podspec_set_deterministic :
    (∀ (l1 l2 : List Rule) (version : String) (tagOpt : Option String),
        l1.Perm l2 → GoodRules l1 →
        write_podspec l1 version tagOpt = write_podspec l2 version tagOpt) ∧
    (∀ es : List (String × RTree),
        ((sortEntries es).map Prod.fst).Sorted (fun a b : String => a ≤ b)) ∧
    (∀ l : List String,
        (sortStrings l).Sorted (fun a b : String => a ≤ b)) := by
  refine ⟨?_, sortEntries_map_fst_sorted, sortStrings_sorted⟩
  intro l1 l2 version tagOpt hp hg1
  have hg2 := goodRules_perm l1 l2 hp hg1
  obtain ⟨d1, hb1, hw1, hdf1⟩ := build_dictFun l1 hg1
  obtain ⟨d2, hb2, hw2, hdf2⟩ := build_dictFun l2 hg2
  have hdfeq : ∀ q, dictFun d1 q = dictFun d2 q := by
    intro q
    rw [hdf1 q, hdf2 q, findByKey_perm l1 l2 hp hg1.2 q]
  rcases lookup_rel d1 d2 hw1 hw2 hdfeq "abseil" with ⟨ha, hb⟩ | ⟨r, ha, hb⟩ |
    ⟨s1, s2, ha, hb, hsub⟩
  · simp only [write_podspec, hb1, hb2, ha, hb]
  · simp only [write_podspec, hb1, hb2, ha, hb]
  · cases ht : renderTemplate version tagOpt with
    | error e => simp only [write_podspec, hb1, hb2, ha, hb, ht]
    | ok spec =>
        simp only [write_podspec, hb1, hb2, ha, hb, ht]
        rw [render_ext (sizeOf s1 + sizeOf s2) s1 s2 le_rfl
          ((WFE_lookup d1 "abseil" _ hw1 ha).2)
          ((WFE_lookup d2 "abseil" _ hw2 hb).2) hsub 0]

theorem write_podspec_set_deterministic_witness :
    [cRuleBase, cRuleTime].Perm [cRuleTime, cRuleBase] ∧
      GoodRules [cRuleBase, cRuleTime] ∧
      write_podspec [cRuleBase, cRuleTime] "1.0" (some "v1.0") =
        write_podspec [cRuleTime, cRuleBase] "1.0" (some "v1.0") :=
  ⟨List.Perm.swap cRuleTime cRuleBase [], by decide,
    write_podspec_set_deterministic.1 [cRuleBase, cRuleTime]
      [cRuleTime, cRuleBase] "1.0" (some "v1.0")
      (List.Perm.swap cRuleTime cRuleBase []) (by decide)⟩

end PodspecGen

namespace PodspecGen

/-! ## C1/C2: the omitted tag renders as the empty string

CPython's `re.sub` concatenates a `None` returned by the replacement
function as the empty string, so the no-tag run completes and writes a
manifest with `:tag => ''`.  The lemmas below compare such runs. -/

theorem wseq_wemit_inj (h1 h2 : String) (t : W)
    (h : wseq (wemit h1) t = wseq (wemit h2) t) : h1 = h2 := by
  cases t with
  | ok s =>
      simp only [wseq, wemit, Except.ok.injEq] at h
      exact string_append_cancel_right h
  | error p =>
      obtain ⟨e, s⟩ := p
      simp only [wseq, wemit, Except.error.injEq, Prod.mk.injEq] at h
      exact string_append_cancel_right h.2

theorem renderHeader_empty_ne_version :
    renderHeader "1.2.3" "" ≠ renderHeader "1.2.3" "1.2.3" := by
  intro hc
  have hlen := congrArg String.length hc
  simp only [renderHeader, String.length_append] at hlen
  exact absurd hlen (by decide)

theorem write_podspec_tag_none (rules : List Rule) (version : String) :
    write_podspec rules version none =
      write_podspec rules version (some "") := by
  cases hbd : build_rule_directory rules with
  | error e => simp [write_podspec, hbd]
  | ok dir =>
      cases hld : lookupDict dir "abseil" with
      | none => simp [write_podspec, hbd, hld]
      | some t =>
          cases t with
          | leaf r => simp [write_podspec, hbd, hld, renderTemplate]
          | node es => simp [write_podspec, hbd, hld, renderTemplate]

theorem runMain_tag_none (collected : Except PyErr (List Rule))
    (version : String) :
    runMain collected version none = runMain collected version (some "") := by
  cases collected with
  | error e => rfl
  | ok rs =>
      simp only [runMain]
      rw [write_podspec_tag_none]

theorem runMain_ok_eq (collected : List Rule) (version : String)
    (tagOpt : Option String) :
    runMain (.ok collected) version tagOpt =
      (match write_podspec (mainFilter collected) version tagOpt with
       | Except.error (e, p) => (FileState.truncated p, Except.error e)
       | Except.ok c => (FileState.truncated c, Except.ok ())) := rfl

theorem runMain_ok_of_write (collected : List Rule) (version : String)
    (tagOpt : Option String) (s : String)
    (h : write_podspec (mainFilter collected) version tagOpt = .ok s) :
    runMain (.ok collected) version tagOpt = (.truncated s, .ok ()) := by
  rw [runMain_ok_eq, h]

theorem runOut_inj (w1 w2 : W)
    (h : (match w1 with
          | Except.error (e, p) => (FileState.truncated p, Except.error e)
          | Except.ok c => (FileState.truncated c, Except.ok ())) =
         (match w2 with
          | Except.error (e, p) =>
              ((FileState.truncated p, Except.error e) :
                FileState × Except PyErr Unit)
          | Except.ok c => (FileState.truncated c, Except.ok ()))) :
    w1 = w2 := by
  cases w1 with
  | ok s1 =>
      cases w2 with
      | ok s2 =>
          simp only [Prod.mk.injEq, FileState.truncated.injEq] at h
          rw [h.1]
      | error p2 =>
          obtain ⟨e2, s2⟩ := p2
          simp at h
  | error p1 =>
      obtain ⟨e1, s1⟩ := p1
      cases w2 with
      | ok s2 => simp at h
      | error p2 =>
          obtain ⟨e2, s2⟩ := p2
          simp only [Prod.mk.injEq, FileState.truncated.injEq,
            Except.error.injEq] at h
          rw [h.1, h.2]

set_option maxRecDepth 8192 in
/-- The concrete run on `[cRuleBase]` with any explicit tag: the header
followed by the (stuck) rendering of the built subtree and the closing
`end`. -/
theorem write_podspec_cRuleBase_shape (tag : String) :
    write_podspec [cRuleBase] "1.2.3" (some tag) =
      wseq (wemit (renderHeader "1.2.3" tag))
        (wseq (write_podspec_map
          [("base", RTree.node [("config", RTree.leaf cRuleBase)])] 0)
          (wemit "end\n")) := rfl

set_option maxRecDepth 8192 in
/-- C1 (code bug): invoking the generator with version `"1.2.3"` and no
tag argument does not render a manifest whose tag is `"1.2.3"`.  `main`
defaults the tag only on its first `parse_args` result and then hands
`write_podspec` a fresh `vars(parser.parse_args())` in which the tag is
still `None`; CPython's `re.sub` substitutes the `None` replacement as
the empty string, so the run completes successfully but the written
manifest carries `:tag => ''`: the run equals the one with an explicit
empty tag, exits cleanly, and differs from the run that the defaulted
tag `"1.2.3"` (which the claim and the `--tag` help text require) would
produce. -/
theorem runMain_omitted_tag_empty :
    runMain (.ok [cRuleBase]) "1.2.3" none =
      runMain (.ok [cRuleBase]) "1.2.3" (some "") ∧
    (runMain (.ok [cRuleBase]) "1.2.3" none).2 = .ok () ∧
    runMain (.ok [cRuleBase]) "1.2.3" none ≠
      runMain (.ok [cRuleBase]) "1.2.3" (some "1.2.3") := by
  have hmf : mainFilter [cRuleBase] = [cRuleBase] := rfl
  have htn : runMain (.ok [cRuleBase]) "1.2.3" none =
      runMain (.ok [cRuleBase]) "1.2.3" (some "") :=
    runMain_tag_none (.ok [cRuleBase]) "1.2.3"
  refine ⟨htn, ?_, ?_⟩
  · obtain ⟨s, hs⟩ : ∃ s, write_podspecS [cRuleBase] "1.2.3" (some "") = .ok s :=
      ⟨_, rfl⟩
    have hw : write_podspec (mainFilter [cRuleBase]) "1.2.3" (some "") =
        .ok s := by
      rw [hmf, write_podspec_eq_S]
      exact hs
    rw [htn, runMain_ok_of_write [cRuleBase] "1.2.3" (some "") s hw]
  · intro h
    rw [htn] at h
    have hww := runOut_inj _ _
      ((runMain_ok_eq [cRuleBase] "1.2.3" (some "")).symm.trans
        (h.trans (runMain_ok_eq [cRuleBase] "1.2.3" (some "1.2.3"))))
    rw [hmf, write_podspec_cRuleBase_shape "",
      write_podspec_cRuleBase_shape "1.2.3"] at hww
    exact renderHeader_empty_ne_version (wseq_wemit_inj _ _ _ hww)

set_option maxRecDepth 8192 in
/-- C2 (code bug): with a stable argument vector that omits the tag
(`-v 1.2.3`), the program that re-parses its arguments does not behave
like the variant that parses once into a single configuration: the
re-parsed namespace has `tag = None` (the defaulting ran only on the
first, discarded namespace), so the actual run writes a manifest with an
empty tag (`:tag => ''`), while the parse-once variant writes one with
tag `1.2.3` — both exit successfully, but the outputs differ in the tag
field, so the redundant parse is observable. -/
theorem runMain_reparse_observable :
    runMain (.ok [cRuleBase]) "1.2.3" none ≠
      runMainParseOnce (.ok [cRuleBase]) "1.2.3" none := by
  intro h
  have hmf : mainFilter [cRuleBase] = [cRuleBase] := rfl
  obtain ⟨s, hs⟩ : ∃ s, write_podspecS [cRuleBase] "1.2.3" (some "1.2.3") = .ok s :=
    ⟨_, rfl⟩
  have hs' : write_podspec (mainFilter [cRuleBase]) "1.2.3"
      (some (Option.getD none "1.2.3")) = .ok s := by
    rw [hmf, write_podspec_eq_S]
    exact hs
  have h4 : runMainParseOnce (.ok [cRuleBase]) "1.2.3" none =
      (FileState.truncated s, Except.ok ()) :=
    runMainParseOnce_of_ok [cRuleBase] "1.2.3" none s hs'
  rw [runMain_tag_none, h4] at h
  have h6 : write_podspec (mainFilter [cRuleBase]) "1.2.3" (some "") =
      Except.ok s :=
    runOut_inj _ (Except.ok s)
      ((runMain_ok_eq [cRuleBase] "1.2.3" (some "")).symm.trans h)
  have h7 : write_podspec [cRuleBase] "1.2.3" (some "1.2.3") = .ok s := by
    rw [write_podspec_eq_S]
    exact hs
  rw [hmf, write_podspec_cRuleBase_shape ""] at h6
  rw [write_podspec_cRuleBase_shape "1.2.3"] at h7
  exact renderHeader_empty_ne_version
    (wseq_wemit_inj _ _ _ (h6.trans h7.symm))

end PodspecGen
